import Mathlib

/-!
# zscatter: record codec, cloud generator and chunk streamer

A shallow embedding of the three Go source files of the repository

* `pkg/format/format.go` (`Record`, `EncodeRecord`, `WriteRecord`),
* `cmd/zscattergen/main.go` (the generation loop and `clamp01`),
* `cmd/zscatterstream/main.go` (the `/stream` handler),

together with the small part of the Go standard library they call
(`binary.LittleEndian.PutUint32`, `math.Max`, `math.Min`, `bufio.Reader`).

Conventions.  A byte is a `Nat` (values written by the code are reduced
`% 256`), a byte slice is a `List Nat` whose length is the slice length
(capacity is taken equal to length), a `uint32` is a `Nat` reduced
`% 2 ^ 32`, and a `float32` is represented by its IEEE-754 bit pattern.
A Go panic is `none`.
-/

namespace Format

/-! ## pkg/format/format.go -/

def RecordFloats : Nat := 6

def RecordSize : Nat := RecordFloats * 4

/-- One coloured point; every field is a `float32`, held as its bit pattern. -/
structure Record where
  X : Nat
  Y : Nat
  Z : Nat
  R : Nat
  G : Nat
  B : Nat
deriving DecidableEq, Repr

/-- The fields are genuine 32-bit patterns. -/
def Record.WF (r : Record) : Prop :=
  r.X < 2 ^ 32 ∧ r.Y < 2 ^ 32 ∧ r.Z < 2 ^ 32 ∧ r.R < 2 ^ 32 ∧ r.G < 2 ^ 32 ∧ r.B < 2 ^ 32

instance (r : Record) : Decidable r.WF := by
  unfold Record.WF; infer_instance

/-- Go `math.Float32bits`: the bit pattern of a `float32`, a `uint32`. -/
def Float32bits (f : Nat) : Nat := f % 2 ^ 32

/-- Go conversion `byte(v)` of an unsigned integer. -/
def byte (v : Nat) : Nat := v % 256

/-- Go `binary.LittleEndian.PutUint32(b, v)`: bounds check on `b[3]`, then
the four stores `b[0] = byte(v)`, `b[1] = byte(v >> 8)`, `b[2] = byte(v >> 16)`,
`b[3] = byte(v >> 24)`. -/
def PutUint32 (b : List Nat) (v : Nat) : Option (List Nat) :=
  if b.length < 4 then none
  else some ((((b.set 0 (byte v)).set 1 (byte (v >>> 8))).set 2 (byte (v >>> 16))).set 3
    (byte (v >>> 24)))

/-- The statement `PutUint32(dst[lo:hi], v)`: the slice expression panics
when the bounds are out of range; the stores go through to `dst`, which the
sub-slice aliases. -/
def putSlice (dst : List Nat) (lo hi : Nat) (v : Nat) : Option (List Nat) :=
  if lo ≤ hi ∧ hi ≤ dst.length then
    (PutUint32 ((dst.drop lo).take (hi - lo)) v).map
      (fun b => dst.take lo ++ b ++ dst.drop hi)
  else none

/-- Go `EncodeRecord(dst, record)`; the result is `dst` after the call. -/
def EncodeRecord (dst : List Nat) (record : Record) : Option (List Nat) := do
  let d ← putSlice dst 0 4 (Float32bits record.X)
  let d ← putSlice d 4 8 (Float32bits record.Y)
  let d ← putSlice d 8 12 (Float32bits record.Z)
  let d ← putSlice d 12 16 (Float32bits record.R)
  let d ← putSlice d 16 20 (Float32bits record.G)
  putSlice d 20 24 (Float32bits record.B)

/-- The bit pattern of field number `k` in the order X, Y, Z, R, G, B. -/
def Record.fieldBits (r : Record) (k : Nat) : Nat :=
  match k with
  | 0 => Float32bits r.X
  | 1 => Float32bits r.Y
  | 2 => Float32bits r.Z
  | 3 => Float32bits r.R
  | 4 => Float32bits r.G
  | _ => Float32bits r.B

/-- Go `binary.LittleEndian.Uint32(b)`:
`uint32(b[0]) | uint32(b[1])<<8 | uint32(b[2])<<16 | uint32(b[3])<<24`. -/
def Uint32 (b : List Nat) : Option Nat :=
  match b with
  | b0 :: b1 :: b2 :: b3 :: _ =>
    some ((byte b0 ||| (byte b1 <<< 8) ||| (byte b2 <<< 16) ||| (byte b3 <<< 24)) % 2 ^ 32)
  | _ => none

/-- Modelled from the spec: the repository has no decoder; `decode` is "the
logical inverse" of the encoding, reading the six little-endian 32-bit words
at offsets 0, 4, 8, 12, 16, 20 as X, Y, Z, R, G, B.  It is defined on byte
sequences of length at least 24. -/
def DecodeRecord (src : List Nat) : Option Record := do
  let x ← Uint32 (src.drop 0)
  let y ← Uint32 (src.drop 4)
  let z ← Uint32 (src.drop 8)
  let r ← Uint32 (src.drop 12)
  let g ← Uint32 (src.drop 16)
  let b ← Uint32 (src.drop 20)
  pure ⟨x, y, z, r, g, b⟩

/-- The little-endian bytes of a 32-bit word, least significant first. -/
def le32 (v : Nat) : List Nat := [v % 256, v / 2 ^ 8 % 256, v / 2 ^ 16 % 256, v / 2 ^ 24 % 256]

/-- The 24 bytes of a record: the six words in the order X, Y, Z, R, G, B. -/
def encodeBytes (r : Record) : List Nat :=
  le32 (Float32bits r.X) ++ le32 (Float32bits r.Y) ++ le32 (Float32bits r.Z)
    ++ le32 (Float32bits r.R) ++ le32 (Float32bits r.G) ++ le32 (Float32bits r.B)

/-- The record of the spec's fixture: X = 1.0, Y = 2.0, Z = 3.0, R = 0.25,
G = 0.5, B = 0.75, as `float32` bit patterns. -/
def exampleRecord : Record :=
  ⟨0x3F800000, 0x40000000, 0x40400000, 0x3E800000, 0x3F000000, 0x3F400000⟩

/-- An `io.Writer` that records what it is given.  `log` holds the slices
passed to `Write` so far, oldest first; `script` fixes the outcome of the
coming calls (`some e` is the error `e`, `none` is success) and an exhausted
script means success. -/
structure Sink where
  log : List (List Nat)
  script : List (Option Nat)
deriving DecidableEq, Repr

/-- One call `w.Write(p)`: the error returned and the sink afterwards. -/
def Sink.Write (w : Sink) (p : List Nat) : Option Nat × Sink :=
  match w.script with
  | [] => (none, { w with log := w.log ++ [p] })
  | o :: rest => (o, { log := w.log ++ [p], script := rest })

/-- No coming write of the sink fails. -/
def Sink.NoFail (w : Sink) : Prop := ∀ o ∈ w.script, o = none

instance (w : Sink) : Decidable w.NoFail := by
  unfold Sink.NoFail; infer_instance

/-- Go `WriteRecord(w, record, buffer)`.  The result is the returned error,
the sink after the call and the caller's buffer after the call (a buffer
shorter than `RecordSize` is replaced by a fresh local one, so the caller's
is untouched). -/
def WriteRecord (w : Sink) (record : Record) (buffer : List Nat) :
    Option (Option Nat × Sink × List Nat) :=
  let buf := if buffer.length < RecordSize then List.replicate RecordSize 0 else buffer
  match EncodeRecord buf record with
  | none => none
  | some buf' =>
    let (err, w') := w.Write (buf'.take RecordSize)
    some (err, w', if buffer.length < RecordSize then buffer else buf')

end Format

/-! ## Floating-point values -/

/-- The values of a Go `float64` (and, as a subset, of a `float32`): NaN,
the two infinities, negative zero, and the finite values as exact
rationals (`fin 0` is positive zero). -/
inductive F64 where
  | nan
  | inf (neg : Bool)
  | nzero
  | fin (q : ℚ)
deriving DecidableEq

namespace F64

/-- Go `math.IsNaN`. -/
def IsNaN : F64 → Bool
  | nan => true
  | _ => false

/-- Go `math.IsInf(f, sign)`. -/
def IsInf (f : F64) (sign : Int) : Bool :=
  match f with
  | inf false => decide (sign ≥ 0)
  | inf true => decide (sign ≤ 0)
  | _ => false

/-- Go `math.Signbit`. -/
def Signbit : F64 → Bool
  | inf neg => neg
  | nzero => true
  | fin q => decide (q < 0)
  | nan => false

/-- The rational value of a finite float. -/
def toRat? : F64 → Option ℚ
  | nzero => some 0
  | fin q => some q
  | _ => none

/-- The comparison `x < y` of Go (IEEE-754: false when either is NaN). -/
def lt (x y : F64) : Bool :=
  match x, y with
  | nan, _ => false
  | _, nan => false
  | _, inf true => false
  | inf false, _ => false
  | inf true, _ => true
  | _, inf false => true
  | nzero, nzero => false
  | nzero, fin q => decide (0 < q)
  | fin p, nzero => decide (p < 0)
  | fin p, fin q => decide (p < q)

/-- The comparison `x == y` of Go (IEEE-754: NaN equals nothing, the two
zeros are equal). -/
def eq (x y : F64) : Bool :=
  match x, y with
  | nan, _ => false
  | _, nan => false
  | inf a, inf b => a == b
  | inf _, _ => false
  | _, inf _ => false
  | nzero, nzero => true
  | nzero, fin q => decide (q = 0)
  | fin p, nzero => decide (p = 0)
  | fin p, fin q => decide (p = q)

/-- The comparison `x <= y` of Go. -/
def le (x y : F64) : Bool := lt x y || eq x y

/-- Go `math.Max(x, y)`. -/
def Max (x y : F64) : F64 :=
  if IsInf x 1 || IsInf y 1 then inf false
  else if IsNaN x || IsNaN y then nan
  else if eq x (fin 0) && eq x y then (if Signbit x then y else x)
  else if lt y x then x
  else y

/-- Go `math.Min(x, y)`. -/
def Min (x y : F64) : F64 :=
  if IsInf x (-1) || IsInf y (-1) then inf true
  else if IsNaN x || IsNaN y then nan
  else if eq x (fin 0) && eq x y then (if Signbit x then x else y)
  else if lt x y then x
  else y

/-- The value lies in the closed interval [0, 1]: Go `0 <= v && v <= 1`. -/
def inUnit (v : F64) : Bool := le (fin 0) v && le v (fin 1)

end F64

/-- The value denoted by a `float32` bit pattern (IEEE-754 binary32: one
sign bit, eight exponent bits with bias 127, 23 fraction bits). -/
def float32Value (b : Nat) : F64 :=
  let sign : Nat := b / 2 ^ 31 % 2
  let exp : Nat := b / 2 ^ 23 % 256
  let man : Nat := b % 2 ^ 23
  let s : ℚ := if sign = 1 then -1 else 1
  if exp = 255 then (if man = 0 then F64.inf (decide (sign = 1)) else F64.nan)
  else if exp = 0 then
    (if man = 0 then (if sign = 1 then F64.nzero else F64.fin 0)
     else F64.fin (s * (man : ℚ) * (2 : ℚ) ^ (-149 : ℤ)))
  else F64.fin (s * (2 ^ 23 + (man : ℚ)) * (2 : ℚ) ^ ((exp : ℤ) - 150))

/-! ## cmd/zscattergen/main.go -/

namespace Gen

open Format

/-- Go `clamp01(value)`: `math.Max(0, math.Min(1, value))`. -/
def clamp01 (value : F64) : F64 := F64.Max (F64.fin 0) (F64.Min (F64.fin 1) value)

/-- The floating-point operations the generator uses, whose rounding is not
modelled: the conversion of a decimal constant to `float64`, `float64`
addition, subtraction and multiplication, and the conversion `float32(v)`
(giving the bit pattern of the result). -/
structure Arith where
  lit : ℚ → F64
  add : F64 → F64 → F64
  sub : F64 → F64 → F64
  mul : F64 → F64 → F64
  toFloat32 : F64 → Nat

/-- The facts of IEEE-754 arithmetic that the colour bound rests on: a
constant is finite, a product of finite values is not NaN, a finite value
plus a value that is not NaN is not NaN, and the conversion to `float32`
yields a 32-bit pattern, is monotone on values that are not NaN and is exact
at 0 and 1. -/
structure Arith.Lawful (A : Arith) : Prop where
  lit_finite : ∀ q, (A.lit q).toRat?.isSome = true
  mul_finite : ∀ x y, x.toRat?.isSome = true → y.toRat?.isSome = true →
    (A.mul x y).IsNaN = false
  add_finite : ∀ x y, x.toRat?.isSome = true → y.IsNaN = false → (A.add x y).IsNaN = false
  narrow_lt : ∀ v, A.toFloat32 v < 2 ^ 32
  narrow_mono : ∀ x y, F64.le x y = true →
    F64.le (float32Value (A.toFloat32 x)) (float32Value (A.toFloat32 y)) = true
  narrow_zero : F64.eq (float32Value (A.toFloat32 (F64.fin 0))) (F64.fin 0) = true
  narrow_one : F64.eq (float32Value (A.toFloat32 (F64.fin 1))) (F64.fin 1) = true

/-- The random source `rng`: the values its successive calls (`Float64` or
`NormFloat64`) return, and the number of calls made so far. -/
structure Rng where
  draws : Nat → F64
  pos : Nat

/-- One call `rng.Float64()`. -/
def Rng.Float64 (g : Rng) : F64 × Rng := (g.draws g.pos, { g with pos := g.pos + 1 })

/-- One call `rng.NormFloat64()`. -/
def Rng.NormFloat64 (g : Rng) : F64 × Rng := (g.draws g.pos, { g with pos := g.pos + 1 })

/-- The per-cluster variables of the outer loop body. -/
structure Cluster where
  centerX : F64
  centerY : F64
  centerZ : F64
  sigmaX : F64
  sigmaY : F64
  sigmaZ : F64
  baseR : F64
  baseG : F64
  baseB : F64

/-- The nine assignments at the head of the outer loop body. -/
def drawCluster (A : Arith) (g : Rng) : Cluster × Rng :=
  let (u, g) := g.Float64
  let centerX := A.sub (A.mul u (A.lit 200)) (A.lit 100)
  let (u, g) := g.Float64
  let centerY := A.sub (A.mul u (A.lit 200)) (A.lit 100)
  let (u, g) := g.Float64
  let centerZ := A.sub (A.mul u (A.lit 200)) (A.lit 100)
  let (u, g) := g.Float64
  let sigmaX := A.add (A.mul u (A.lit 10)) (A.lit 1)
  let (u, g) := g.Float64
  let sigmaY := A.add (A.mul u (A.lit 10)) (A.lit 1)
  let (u, g) := g.Float64
  let sigmaZ := A.add (A.mul u (A.lit 10)) (A.lit 1)
  let (u, g) := g.Float64
  let baseR := A.add (A.mul u (A.lit (6 / 10))) (A.lit (2 / 10))
  let (u, g) := g.Float64
  let baseG := A.add (A.mul u (A.lit (6 / 10))) (A.lit (2 / 10))
  let (u, g) := g.Float64
  let baseB := A.add (A.mul u (A.lit (6 / 10))) (A.lit (2 / 10))
  (⟨centerX, centerY, centerZ, sigmaX, sigmaY, sigmaZ, baseR, baseG, baseB⟩, g)

/-- One colour channel: `float32(clamp01(base + rng.NormFloat64()*0.05))`
given the value `n` of the call. -/
def channel (A : Arith) (base n : F64) : Nat :=
  A.toFloat32 (clamp01 (A.add base (A.mul n (A.lit (5 / 100)))))

/-- The record construction of the inner loop body: `x`, `y`, `z`, then the
composite literal, whose calls are made in the order R, G, B. -/
def drawPoint (A : Arith) (c : Cluster) (g : Rng) : Record × Rng :=
  let (n, g) := g.NormFloat64
  let x := A.add c.centerX (A.mul n c.sigmaX)
  let (n, g) := g.NormFloat64
  let y := A.add c.centerY (A.mul n c.sigmaY)
  let (n, g) := g.NormFloat64
  let z := A.add c.centerZ (A.mul n c.sigmaZ)
  let (n, g) := g.NormFloat64
  let r := channel A c.baseR n
  let (n, g) := g.NormFloat64
  let gr := channel A c.baseG n
  let (n, g) := g.NormFloat64
  let b := channel A c.baseB n
  (⟨A.toFloat32 x, A.toFloat32 y, A.toFloat32 z, r, gr, b⟩, g)

/-- The state the loops carry: the random source, the output writer and the
scratch buffer. -/
structure GenState where
  rng : Rng
  writer : Sink
  buffer : List Nat

/-- How the generation ends: the loops run to completion, or a write error
`e` is reported and the process exits with status 1. -/
inductive GenExit where
  | done
  | writeError (e : Nat)
deriving DecidableEq, Repr

/-- The inner loop `for i := 0; i < pointsPerCloud; i++`, with `n`
iterations left. -/
def pointLoop (A : Arith) (c : Cluster) : Nat → GenState → Option (GenExit × GenState)
  | 0, s => some (GenExit.done, s)
  | n + 1, s =>
    let (record, g) := drawPoint A c s.rng
    match WriteRecord s.writer record s.buffer with
    | none => none
    | some (some e, w, buf) => some (GenExit.writeError e, ⟨g, w, buf⟩)
    | some (none, w, buf) => pointLoop A c n ⟨g, w, buf⟩

/-- The outer loop `for cloud := 0; cloud < cloudCount; cloud++`, with `n`
iterations left. -/
def cloudLoop (A : Arith) (pointsPerCloud : Nat) : Nat → GenState → Option (GenExit × GenState)
  | 0, s => some (GenExit.done, s)
  | n + 1, s =>
    let (c, g) := drawCluster A s.rng
    match pointLoop A c pointsPerCloud { s with rng := g } with
    | none => none
    | some (GenExit.writeError e, s') => some (GenExit.writeError e, s')
    | some (GenExit.done, s') => cloudLoop A pointsPerCloud n s'

/-- The generation loop of `main`, from `buffer := make([]byte, RecordSize)`
on, writing to `writer`. -/
def generate (A : Arith) (cloudCount pointsPerCloud : Nat) (rng : Rng) (writer : Sink) :
    Option (GenExit × GenState) :=
  cloudLoop A pointsPerCloud cloudCount ⟨rng, writer, List.replicate RecordSize 0⟩

/-- The record of point `i` of cluster `k`, read off the draws directly:
cluster `k` starts `k * (9 + 6 * pointsPerCloud)` calls after the first, its
nine parameters come first and each point takes six calls. -/
def recordAt (A : Arith) (pointsPerCloud : Nat) (rng : Rng) (k i : Nat) : Record :=
  let start := rng.pos + k * (9 + 6 * pointsPerCloud)
  let c := (drawCluster A ⟨rng.draws, start⟩).1
  (drawPoint A c ⟨rng.draws, start + 9 + 6 * i⟩).1

end Gen

/-! ## cmd/zscatterstream/main.go -/

namespace Stream

/-- The error a read reports: `io.EOF` or any other error. -/
inductive ReadErr where
  | EOF
  | other
deriving DecidableEq, Repr

/-- The behaviour of one read of the source: it returns at most `limit`
bytes; with `fault` it reports an error other than `io.EOF` together with
them; with `eager` it reports `io.EOF` already together with the last bytes
of the source instead of on the following call. -/
structure ReadStep where
  limit : Nat
  fault : Bool
  eager : Bool
deriving DecidableEq, Repr

/-- The opened source file as an `io.Reader` over a finite byte sequence:
`data` holds the bytes not yet read, `plan` the behaviour of the coming
reads.  Once the plan is exhausted a read fills the buffer as far as bytes
remain, and reports `io.EOF` with no bytes at the end (a regular file). -/
structure Source where
  data : List Nat
  plan : List ReadStep
deriving DecidableEq, Repr

/-- One call `file.Read(p)` with `len(p) = len`: the bytes stored in `p`, the
error, and the source afterwards. -/
def Source.Read (f : Source) (len : Nat) : List Nat × Option ReadErr × Source :=
  if len = 0 then ([], none, f)
  else
    match f.plan with
    | [] =>
      if f.data = [] then ([], some ReadErr.EOF, f)
      else (f.data.take len, none, { f with data := f.data.drop len })
    | s :: rest =>
      let n := min s.limit len
      let err :=
        if s.fault then some ReadErr.other
        else if f.data = [] ∨ (s.eager = true ∧ f.data.drop n = []) then some ReadErr.EOF
        else none
      (f.data.take n, err, { data := f.data.drop n, plan := rest })

/-- Go `bufio.Reader`: the underlying reader `rd`, the length `size` of the
internal buffer `b.buf`, the buffered unread bytes `b.buf[b.r:b.w]`, and the
pending error `b.err`. -/
structure Reader where
  rd : Source
  size : Nat
  buf : List Nat
  err : Option ReadErr
deriving DecidableEq, Repr

/-- Go `bufio` constant `minReadBufferSize`. -/
def minReadBufferSize : Nat := 16

/-- Go `bufio.NewReaderSize(rd, size)` for an `rd` that is not itself a
`bufio.Reader`: the buffer has length `max(size, minReadBufferSize)`. -/
def NewReaderSize (rd : Source) (size : Nat) : Reader :=
  { rd := rd, size := max size minReadBufferSize, buf := [], err := none }

/-- Go `(*bufio.Reader).Read(p)` with `len(p) = len`: the bytes stored in
`p`, the error returned, and the reader afterwards.  With an empty buffer a
read of at least `size` bytes goes straight to the underlying reader, a
smaller one fills the internal buffer by one underlying read; then as much
as fits is copied out of the buffer. -/
def Reader.Read (b : Reader) (len : Nat) : List Nat × Option ReadErr × Reader :=
  if len = 0 then
    if 0 < b.buf.length then ([], none, b) else ([], b.err, { b with err := none })
  else if b.buf = [] then
    if b.err ≠ none then ([], b.err, { b with err := none })
    else if b.size ≤ len then
      let (p, e, rd) := b.rd.Read len
      (p, e, { b with rd := rd, err := none })
    else
      let (p, e, rd) := b.rd.Read b.size
      if p.length = 0 then ([], e, { b with rd := rd, err := none })
      else (p.take len, none, { b with rd := rd, buf := p.drop len, err := e })
  else (b.buf.take len, none, { b with buf := b.buf.drop len })

/-- What the handler does, in order. -/
inductive Event where
  | openFile (ok : Bool)
  | httpError (msg : String) (code : Nat)
  | setHeader (key value : String)
  | read (p : List Nat) (err : Option ReadErr)
  | write (p : List Nat) (accepted : Nat) (ok : Bool)
  | flush
  | close
deriving DecidableEq, Repr

/-- The client connection: the outcome of the coming writes.  `none` is a
successful write; `some k` is a failed write of which the client still
accepted `k` bytes (at most the whole slice).  An exhausted list means
success. -/
abbrev Client := List (Option Nat)

/-- One call `w.Write(p)`: the number of bytes accepted, whether it
succeeded, and the client afterwards. -/
def clientWrite (c : Client) (p : List Nat) : Nat × Bool × Client :=
  match c with
  | [] => (p.length, true, [])
  | none :: rest => (p.length, true, rest)
  | some k :: rest => (min k p.length, false, rest)

/-- How the streaming loop ends: `break` at `io.EOF`, `return` at another
read error, `return` at a failed write. -/
inductive Exit where
  | completed
  | readFailed
  | writeFailed
deriving DecidableEq, Repr

/-- The tail of the loop body, `if readErr != nil`: stop at an error, else
go round again (`rest` is the remaining run). -/
def afterRead (readErr : Option ReadErr) (evs : List Event)
    (rest : Option (Exit × List Event)) : Option (Exit × List Event) :=
  match readErr with
  | some ReadErr.EOF => some (Exit.completed, evs)
  | some ReadErr.other => some (Exit.readFailed, evs)
  | none => rest.map (fun r => (r.1, evs ++ r.2))

/-- The loop `for { n, readErr := reader.Read(buffer) ... }` of the handler,
with `len(buffer) = chunkSize`; `fuel` bounds the number of iterations and
`none` means the bound was reached.  The result is the way the loop ended
and the events in order. -/
def streamLoop (chunkSize : Nat) : Nat → Reader → Client → Option (Exit × List Event)
  | 0, _, _ => none
  | fuel + 1, reader, client =>
    let (p, readErr, reader') := reader.Read chunkSize
    if 0 < p.length then
      match clientWrite client p with
      | (k, false, _) => some (Exit.writeFailed, [Event.read p readErr, Event.write p k false])
      | (k, true, client') =>
        afterRead readErr [Event.read p readErr, Event.write p k true, Event.flush]
          (streamLoop chunkSize fuel reader' client')
    else
      afterRead readErr [Event.read p readErr] (streamLoop chunkSize fuel reader' client)

/-- Go `http.StatusInternalServerError`. -/
def StatusInternalServerError : Nat := 500

/-- The `/stream` handler.  `fs` is the file system (`os.Open` fails where
it is `none`), `isFlusher` tells whether the response writer implements
`http.Flusher`. -/
def handler (fs : String → Option Source) (filePath : String) (isFlusher : Bool)
    (chunkSize fuel : Nat) (client : Client) : Option (List Event) :=
  match fs filePath with
  | none =>
    some [Event.openFile false,
      Event.httpError "failed to open data file" StatusInternalServerError]
  | some file =>
    let hdr := [Event.openFile true,
      Event.setHeader "Content-Type" "application/octet-stream",
      Event.setHeader "Cache-Control" "no-store"]
    if isFlusher = false then
      some (hdr ++ [Event.httpError "streaming unsupported" StatusInternalServerError,
        Event.close])
    else
      (streamLoop chunkSize fuel (NewReaderSize file chunkSize) client).map
        (fun r => hdr ++ r.2 ++ [Event.close])

/-- The slices passed to the client's `Write`, in order. -/
def writes : List Event → List (List Nat)
  | [] => []
  | Event.write p _ _ :: evs => p :: writes evs
  | _ :: evs => writes evs

/-- The bytes the client accepted, in order. -/
def delivered : List Event → List Nat
  | [] => []
  | Event.write p k _ :: evs => p.take k ++ delivered evs
  | _ :: evs => delivered evs

/-- The number of flushes. -/
def flushes : List Event → Nat
  | [] => 0
  | Event.flush :: evs => flushes evs + 1
  | _ :: evs => flushes evs

/-- The number of reads that returned at least one byte. -/
def nonEmptyReads : List Event → Nat
  | [] => 0
  | Event.read p _ :: evs => (if 0 < p.length then 1 else 0) + nonEmptyReads evs
  | _ :: evs => nonEmptyReads evs

end Stream

/-! ## Auxiliary definitions for the statements -/

/-- A rational among the extended rationals. -/
def extOfRat (q : ℚ) : WithBot (WithTop ℚ) := ((q : WithTop ℚ) : WithBot (WithTop ℚ))

/-- The value of a float that is not NaN as an extended rational. -/
def F64.toExt? : F64 → Option (WithBot (WithTop ℚ))
  | F64.nan => none
  | F64.inf true => some ⊥
  | F64.inf false => some ((⊤ : WithTop ℚ) : WithBot (WithTop ℚ))
  | F64.nzero => some (extOfRat 0)
  | F64.fin q => some (extOfRat q)

namespace Gen

open Format

/-- Negation of a float. -/
def fneg : F64 → F64
  | F64.nan => F64.nan
  | F64.inf b => F64.inf (!b)
  | F64.nzero => F64.fin 0
  | F64.fin q => if q = 0 then F64.nzero else F64.fin (-q)

/-- Addition without rounding. -/
def fadd (x y : F64) : F64 :=
  match x, y with
  | F64.nan, _ => F64.nan
  | _, F64.nan => F64.nan
  | F64.inf a, F64.inf b => if a = b then F64.inf a else F64.nan
  | F64.inf a, _ => F64.inf a
  | _, F64.inf b => F64.inf b
  | F64.nzero, F64.nzero => F64.nzero
  | F64.nzero, F64.fin q => F64.fin q
  | F64.fin p, F64.nzero => F64.fin p
  | F64.fin p, F64.fin q => F64.fin (p + q)

/-- Multiplication without rounding (the sign of a zero product is not
tracked). -/
def fmul (x y : F64) : F64 :=
  match x, y with
  | F64.nan, _ => F64.nan
  | _, F64.nan => F64.nan
  | F64.inf a, F64.inf b => F64.inf (xor a b)
  | F64.inf _, F64.nzero => F64.nan
  | F64.nzero, F64.inf _ => F64.nan
  | F64.inf a, F64.fin q => if q = 0 then F64.nan else F64.inf (xor a (decide (q < 0)))
  | F64.fin p, F64.inf b => if p = 0 then F64.nan else F64.inf (xor b (decide (p < 0)))
  | F64.nzero, _ => F64.fin 0
  | _, F64.nzero => F64.fin 0
  | F64.fin p, F64.fin q => F64.fin (p * q)

/-- A conversion to `float32` that truncates towards zero onto the values
-1, -0, 0, 1 and keeps NaN and the infinities. -/
def truncFloat32 : F64 → Nat
  | F64.nan => 0x7FC00000
  | F64.inf false => 0x7F800000
  | F64.inf true => 0xFF800000
  | F64.nzero => 0x80000000
  | F64.fin q =>
    if q ≤ -1 then 0xBF800000 else if q < 0 then 0x80000000
    else if q < 1 then 0 else 0x3F800000

/-- An idealised arithmetic: exact on finite values, with the truncating
conversion to `float32`.  It satisfies `Arith.Lawful` and serves to evaluate
the generator on concrete inputs. -/
def exactArith : Arith where
  lit := F64.fin
  add := fadd
  sub := fun x y => fadd x (fneg y)
  mul := fmul
  toFloat32 := truncFloat32

/-- The encodings of the `n` records the inner loop writes for cluster `c`
when the random source has made `pos` calls. -/
def pointsOf (A : Arith) (c : Cluster) (draws : Nat → F64) (pos n : Nat) : List (List Nat) :=
  (List.range n).map (fun i => encodeBytes (drawPoint A c ⟨draws, pos + 6 * i⟩).1)

/-- The encodings the outer loop writes in `n` iterations with
`pointsPerCloud` points each when the random source has made `pos` calls. -/
def cloudsOf (A : Arith) (pointsPerCloud : Nat) (draws : Nat → F64) (pos n : Nat) :
    List (List Nat) :=
  (List.range n).flatMap (fun k =>
    pointsOf A (drawCluster A ⟨draws, pos + k * (9 + 6 * pointsPerCloud)⟩).1 draws
      (pos + k * (9 + 6 * pointsPerCloud) + 9) pointsPerCloud)

end Gen

namespace Stream

/-- The bytes of the source the reader has not handed out yet: those in
its buffer, then those still in the file. -/
def Reader.pending (b : Reader) : List Nat := b.buf ++ b.rd.data

/-- The measure that bounds the remaining iterations: behaviours still
planned, bytes still in the file, bytes still buffered. -/
def Reader.measure (b : Reader) : Nat := b.rd.plan.length + b.rd.data.length + b.buf.length

/-- The exit a read error leads to. -/
def exitOf : ReadErr → Exit
  | ReadErr.EOF => Exit.completed
  | ReadErr.other => Exit.readFailed

/-- The runs of the streaming loop, iteration by iteration: `Run c b cl x evs`
says that the loop started with reader `b` and client `cl` ends in the way
`x` after the events `evs`.  The five rules are the five paths through the
loop body. -/
inductive Run (chunkSize : Nat) : Reader → Client → Exit → List Event → Prop where
  | writeFail {b : Reader} {cl cl' : Client} {p : List Nat} {e : Option ReadErr} {b' : Reader}
      {k : Nat} :
      b.Read chunkSize = (p, e, b') → 0 < p.length → clientWrite cl p = (k, false, cl') →
      Run chunkSize b cl Exit.writeFailed [Event.read p e, Event.write p k false]
  | lastChunk {b : Reader} {cl cl' : Client} {p : List Nat} {e : ReadErr} {b' : Reader}
      {k : Nat} :
      b.Read chunkSize = (p, some e, b') → 0 < p.length → clientWrite cl p = (k, true, cl') →
      Run chunkSize b cl (exitOf e) [Event.read p (some e), Event.write p k true, Event.flush]
  | chunk {b : Reader} {cl cl' : Client} {p : List Nat} {b' : Reader} {k : Nat} {x : Exit}
      {evs : List Event} :
      b.Read chunkSize = (p, none, b') → 0 < p.length → clientWrite cl p = (k, true, cl') →
      Run chunkSize b' cl' x evs →
      Run chunkSize b cl x (Event.read p none :: Event.write p k true :: Event.flush :: evs)
  | stop {b : Reader} {cl : Client} {p : List Nat} {e : ReadErr} {b' : Reader} :
      b.Read chunkSize = (p, some e, b') → ¬ 0 < p.length →
      Run chunkSize b cl (exitOf e) [Event.read p (some e)]
  | idle {b : Reader} {cl : Client} {p : List Nat} {b' : Reader} {x : Exit}
      {evs : List Event} :
      b.Read chunkSize = (p, none, b') → ¬ 0 < p.length → Run chunkSize b' cl x evs →
      Run chunkSize b cl x (Event.read p none :: evs)

/-- One pass through the loop body: the bytes the read returned, the
error it reported and, when it returned bytes, how many of them the client
accepted and whether the write succeeded. -/
structure Iteration where
  p : List Nat
  err : Option ReadErr
  accepted : Nat
  ok : Bool

/-- The events of one pass: the read; when it returned bytes, one write of
exactly those bytes; when that write succeeded, one flush. -/
def Iteration.events (it : Iteration) : List Event :=
  Event.read it.p it.err ::
    (if 0 < it.p.length then
      Event.write it.p it.accepted it.ok :: (if it.ok = true then [Event.flush] else [])
    else [])

/-- The number of writes that succeeded. -/
def goodWrites : List Event → Nat
  | [] => 0
  | Event.write _ _ ok :: evs => (if ok = true then 1 else 0) + goodWrites evs
  | _ :: evs => goodWrites evs

/-- The pending error of the reader is `io.EOF` only when the file is
exhausted. -/
def ReaderInv (b : Reader) : Prop := b.err = some ReadErr.EOF → b.rd.data = []

/-- No read of the source fails, now or later. -/
def NoFault (b : Reader) : Prop :=
  b.err ≠ some ReadErr.other ∧ ∀ s ∈ b.rd.plan, s.fault = false

/-- The reader states in which reads of `c` bytes stay aligned with the
internal buffer: no error is pending, the file fills the buffer it is given
while bytes remain, the buffer is no longer than `c` or a multiple of `c`,
and the buffered bytes are a multiple of `c` unless the file is exhausted. -/
def Aligned (c : Nat) (b : Reader) : Prop :=
  b.err = none ∧ b.rd.plan = [] ∧ (b.size ≤ c ∨ c ∣ b.size) ∧
    (c ∣ b.buf.length ∨ b.rd.data = [])

end Stream

/-! # Theorems -/

set_option linter.unusedTactic false
set_option linter.unreachableTactic false
set_option linter.unusedVariables false
set_option linter.unnecessarySeqFocus false

open Format

/-! ## The record codec -/

theorem list_split24 (l : List Nat) (h : 24 ≤ l.length) :
    ∃ a0 a1 a2 a3 a4 a5 a6 a7 a8 a9 a10 a11 a12 a13 a14 a15 a16 a17 a18 a19 a20 a21 a22 a23 rest,
      l = a0 :: a1 :: a2 :: a3 :: a4 :: a5 :: a6 :: a7 :: a8 :: a9 :: a10 :: a11 :: a12 :: a13
        :: a14 :: a15 :: a16 :: a17 :: a18 :: a19 :: a20 :: a21 :: a22 :: a23 :: rest := by
  rcases l with _ | ⟨a0, _ | ⟨a1, _ | ⟨a2, _ | ⟨a3, _ | ⟨a4, _ | ⟨a5, _ | ⟨a6, _ | ⟨a7, _ | ⟨a8,
    _ | ⟨a9, _ | ⟨a10, _ | ⟨a11, _ | ⟨a12, _ | ⟨a13, _ | ⟨a14, _ | ⟨a15, _ | ⟨a16, _ | ⟨a17,
    _ | ⟨a18, _ | ⟨a19, _ | ⟨a20, _ | ⟨a21, _ | ⟨a22, _ | ⟨a23, rest⟩⟩⟩⟩⟩⟩⟩⟩⟩⟩⟩⟩⟩⟩⟩⟩⟩⟩⟩⟩⟩⟩⟩⟩ <;>
    first
      | (simp at h; done)
      | (simp only [List.length_cons] at h; omega)
      | exact ⟨_, _, _, _, _, _, _, _, _, _, _, _, _, _, _, _, _, _, _, _, _, _, _, _, _, rfl⟩

theorem encode_eq (dst : List Nat) (r : Record) (h : 24 ≤ dst.length) :
    EncodeRecord dst r = some (encodeBytes r ++ dst.drop 24) := by
  obtain ⟨a0, a1, a2, a3, a4, a5, a6, a7, a8, a9, a10, a11, a12, a13, a14, a15, a16, a17, a18,
    a19, a20, a21, a22, a23, rest, rfl⟩ := list_split24 dst h
  have e1 : ¬ rest.length + 20 < 4 := by omega
  have e2 : ¬ rest.length + 16 < 4 := by omega
  have e3 : ¬ rest.length + 12 < 4 := by omega
  have e4 : ¬ rest.length + 8 < 4 := by omega
  have e5 : ¬ rest.length + 4 < 4 := by omega
  simp [EncodeRecord, putSlice, PutUint32, encodeBytes, le32, byte, Nat.shiftRight_eq_div_pow,
    e1, e2, e3, e4, e5]

theorem or_shift_eq (a b : Nat) (i : Nat) (ha : a < 2 ^ i) : a ||| (b <<< i) = a + b * 2 ^ i := by
  rw [Nat.or_comm, Nat.shiftLeft_eq, Nat.mul_comm b, ← Nat.mul_add_lt_is_or ha]; omega

theorem uint32_le32 (v : Nat) (h : v < 2 ^ 32) (rest : List Nat) :
    Uint32 (le32 v ++ rest) = some v := by
  have h0 : v % 256 < 2 ^ 8 := by omega
  have h1 : v % 256 + (v / 2 ^ 8 % 256) * 2 ^ 8 < 2 ^ 16 := by omega
  have h2 : v % 256 + (v / 2 ^ 8 % 256) * 2 ^ 8 + (v / 2 ^ 16 % 256) * 2 ^ 16 < 2 ^ 24 := by omega
  simp only [le32, Uint32, byte, List.cons_append, List.nil_append, Nat.mod_mod, Option.some.injEq]
  rw [or_shift_eq _ _ 8 h0, or_shift_eq _ _ 16 h1, or_shift_eq _ _ 24 h2]
  omega

theorem decode_le32 (x y z r g b : Nat) (rest : List Nat) (hx : x < 2 ^ 32) (hy : y < 2 ^ 32)
    (hz : z < 2 ^ 32) (hr : r < 2 ^ 32) (hg : g < 2 ^ 32) (hb : b < 2 ^ 32) :
    DecodeRecord (le32 x ++ le32 y ++ le32 z ++ le32 r ++ le32 g ++ le32 b ++ rest)
      = some ⟨x, y, z, r, g, b⟩ := by
  have e0 := uint32_le32 x hx (le32 y ++ le32 z ++ le32 r ++ le32 g ++ le32 b ++ rest)
  have e1 := uint32_le32 y hy (le32 z ++ le32 r ++ le32 g ++ le32 b ++ rest)
  have e2 := uint32_le32 z hz (le32 r ++ le32 g ++ le32 b ++ rest)
  have e3 := uint32_le32 r hr (le32 g ++ le32 b ++ rest)
  have e4 := uint32_le32 g hg (le32 b ++ rest)
  have e5 := uint32_le32 b hb rest
  unfold DecodeRecord
  simp only [List.append_assoc] at e0 e1 e2 e3 e4 e5 ⊢
  have s4 : List.drop 4 (le32 x ++ (le32 y ++ (le32 z ++ (le32 r ++ (le32 g ++ (le32 b ++ rest))))))
      = le32 y ++ (le32 z ++ (le32 r ++ (le32 g ++ (le32 b ++ rest)))) := rfl
  have s8 : List.drop 8 (le32 x ++ (le32 y ++ (le32 z ++ (le32 r ++ (le32 g ++ (le32 b ++ rest))))))
      = le32 z ++ (le32 r ++ (le32 g ++ (le32 b ++ rest))) := rfl
  have s12 : List.drop 12 (le32 x ++ (le32 y ++ (le32 z ++ (le32 r ++ (le32 g ++ (le32 b ++ rest))))))
      = le32 r ++ (le32 g ++ (le32 b ++ rest)) := rfl
  have s16 : List.drop 16 (le32 x ++ (le32 y ++ (le32 z ++ (le32 r ++ (le32 g ++ (le32 b ++ rest))))))
      = le32 g ++ (le32 b ++ rest) := rfl
  have s20 : List.drop 20 (le32 x ++ (le32 y ++ (le32 z ++ (le32 r ++ (le32 g ++ (le32 b ++ rest))))))
      = le32 b ++ rest := rfl
  rw [s4, s8, s12, s16, s20, List.drop_zero, e0, e1, e2, e3, e4, e5]
  rfl

theorem encodeBytes_length (r : Record) : (encodeBytes r).length = 24 := rfl

theorem float32bits_lt (f : Nat) : Float32bits f < 2 ^ 32 := Nat.mod_lt _ (by norm_num)

theorem float32bits_of_lt (f : Nat) (h : f < 2 ^ 32) : Float32bits f = f := Nat.mod_eq_of_lt h

theorem decode_encodeBytes (r : Record) (hr : r.WF) (rest : List Nat) :
    DecodeRecord (encodeBytes r ++ rest) = some r := by
  obtain ⟨hx, hy, hz, hr', hg, hb⟩ := hr
  unfold encodeBytes
  rw [float32bits_of_lt _ hx, float32bits_of_lt _ hy, float32bits_of_lt _ hz,
    float32bits_of_lt _ hr', float32bits_of_lt _ hg, float32bits_of_lt _ hb]
  exact decode_le32 _ _ _ _ _ _ rest hx hy hz hr' hg hb

theorem take24_encodeBytes (r : Record) (rest : List Nat) :
    (encodeBytes r ++ rest).take 24 = encodeBytes r := by
  rw [List.take_append_of_le_length (by rw [encodeBytes_length])]
  exact List.take_of_length_le (by rw [encodeBytes_length])

theorem drop24_encodeBytes (r : Record) (rest : List Nat) :
    (encodeBytes r ++ rest).drop 24 = rest :=
  List.drop_left' (encodeBytes_length r)

/-- C1: for every record and every destination of length at least 24,
`EncodeRecord` succeeds, `RecordSize` is 24, the destination keeps its length
and its bytes from index 24 on, and for field `k` of (X, Y, Z, R, G, B) and
`j` in 0..3 byte `4k+j` holds bits `8j..8j+7` of the field's bit pattern; the
record (1.0, 2.0, 3.0, 0.25, 0.5, 0.75) encodes to the bytes
00 00 80 3F 00 00 00 40 00 00 40 40 00 00 80 3E 00 00 00 3F 00 00 40 3F. -/
theorem C1_encode_layout (dst : List Nat) (r : Record) (h : 24 ≤ dst.length) :
    RecordSize = 24 ∧
    (∃ out, EncodeRecord dst r = some out ∧ out.length = dst.length ∧
      out.drop 24 = dst.drop 24 ∧
      ∀ k j, k < 6 → j < 4 → out[4 * k + j]? = some (r.fieldBits k / 2 ^ (8 * j) % 256)) ∧
    (float32Value exampleRecord.X = F64.fin 1 ∧ float32Value exampleRecord.Y = F64.fin 2 ∧
      float32Value exampleRecord.Z = F64.fin 3 ∧ float32Value exampleRecord.R = F64.fin (1 / 4) ∧
      float32Value exampleRecord.G = F64.fin (1 / 2) ∧
      float32Value exampleRecord.B = F64.fin (3 / 4)) ∧
    (EncodeRecord dst exampleRecord).map (List.take 24) =
      some [0x00, 0x00, 0x80, 0x3F, 0x00, 0x00, 0x00, 0x40, 0x00, 0x00, 0x40, 0x40,
        0x00, 0x00, 0x80, 0x3E, 0x00, 0x00, 0x00, 0x3F, 0x00, 0x00, 0x40, 0x3F] := by
  refine ⟨rfl, ⟨_, encode_eq dst r h, ?_, drop24_encodeBytes r _, ?_⟩, ?_, ?_⟩
  · rw [List.length_append, encodeBytes_length, List.length_drop]; omega
  · intro k j hk hj
    rw [List.getElem?_append_left (by rw [encodeBytes_length]; omega)]
    interval_cases k <;> interval_cases j <;> simp [encodeBytes, le32, Record.fieldBits]
  · refine ⟨?_, ?_, ?_, ?_, ?_, ?_⟩ <;> norm_num [float32Value, exampleRecord]
  · rw [encode_eq dst _ h, Option.map_some', take24_encodeBytes]
    rfl

theorem C1_encode_layout_witness :
    RecordSize = 24 ∧
    (∃ out, EncodeRecord (List.replicate 30 7) ⟨1, 2, 3, 4, 5, 0x7FC00000⟩ = some out ∧
      out.length = (List.replicate 30 7).length ∧
      out.drop 24 = (List.replicate 30 7).drop 24 ∧
      ∀ k j, k < 6 → j < 4 → out[4 * k + j]? =
        some ((⟨1, 2, 3, 4, 5, 0x7FC00000⟩ : Record).fieldBits k / 2 ^ (8 * j) % 256)) ∧
    (float32Value exampleRecord.X = F64.fin 1 ∧ float32Value exampleRecord.Y = F64.fin 2 ∧
      float32Value exampleRecord.Z = F64.fin 3 ∧ float32Value exampleRecord.R = F64.fin (1 / 4) ∧
      float32Value exampleRecord.G = F64.fin (1 / 2) ∧
      float32Value exampleRecord.B = F64.fin (3 / 4)) ∧
    (EncodeRecord (List.replicate 30 7) exampleRecord).map (List.take 24) =
      some [0x00, 0x00, 0x80, 0x3F, 0x00, 0x00, 0x00, 0x40, 0x00, 0x00, 0x40, 0x40,
        0x00, 0x00, 0x80, 0x3E, 0x00, 0x00, 0x00, 0x3F, 0x00, 0x00, 0x40, 0x3F] :=
  C1_encode_layout (List.replicate 30 7) ⟨1, 2, 3, 4, 5, 0x7FC00000⟩ (by decide)

/-- C2: for every record of 32-bit patterns (NaN and infinity patterns
included), decoding what `EncodeRecord` wrote gives the record back, field
by field, and two records with the same 24 encoded bytes are equal. -/
theorem C2_roundtrip (r : Record) (hr : r.WF) (dst : List Nat) (h : 24 ≤ dst.length) :
    ∃ out, EncodeRecord dst r = some out ∧ DecodeRecord out = some r ∧
      DecodeRecord (out.take 24) = some r ∧
      ∀ (r2 : Record) (dst2 out2 : List Nat), r2.WF → 24 ≤ dst2.length →
        EncodeRecord dst2 r2 = some out2 → out2.take 24 = out.take 24 → r2 = r := by
  refine ⟨_, encode_eq dst r h, decode_encodeBytes r hr _, ?_, ?_⟩
  · rw [take24_encodeBytes]
    simpa using decode_encodeBytes r hr []
  · intro r2 dst2 out2 hr2 h2 he ht
    rw [encode_eq dst2 r2 h2] at he
    cases he
    rw [take24_encodeBytes, take24_encodeBytes] at ht
    have d1 := decode_encodeBytes r hr []
    have d2 := decode_encodeBytes r2 hr2 []
    rw [ht, d1] at d2
    exact (Option.some.inj d2).symm

theorem C2_roundtrip_witness :
    ∃ out, EncodeRecord (List.replicate 24 0) ⟨0x7FC00001, 0x7F800000, 0xFF800000, 0, 1, 0xFFFFFFFF⟩
        = some out ∧
      DecodeRecord out = some ⟨0x7FC00001, 0x7F800000, 0xFF800000, 0, 1, 0xFFFFFFFF⟩ ∧
      DecodeRecord (out.take 24) = some ⟨0x7FC00001, 0x7F800000, 0xFF800000, 0, 1, 0xFFFFFFFF⟩ ∧
      ∀ (r2 : Record) (dst2 out2 : List Nat), r2.WF → 24 ≤ dst2.length →
        EncodeRecord dst2 r2 = some out2 → out2.take 24 = out.take 24 →
        r2 = ⟨0x7FC00001, 0x7F800000, 0xFF800000, 0, 1, 0xFFFFFFFF⟩ :=
  C2_roundtrip ⟨0x7FC00001, 0x7F800000, 0xFF800000, 0, 1, 0xFFFFFFFF⟩ (by decide)
    (List.replicate 24 0) (by decide)

theorem writeRecord_eq (w : Sink) (r : Record) (buffer : List Nat) :
    WriteRecord w r buffer = some ((w.Write (encodeBytes r)).1, (w.Write (encodeBytes r)).2,
      if buffer.length < 24 then buffer else encodeBytes r ++ buffer.drop 24) := by
  have hrs : RecordSize = 24 := rfl
  unfold WriteRecord
  by_cases hb : buffer.length < 24
  · have hlen : 24 ≤ (List.replicate 24 0).length := by simp
    simp only [hrs, hb, if_true, encode_eq _ r hlen, take24_encodeBytes]
  · have hlen : 24 ≤ buffer.length := by omega
    simp only [hrs, hb, if_false, encode_eq _ r hlen, take24_encodeBytes]

theorem sink_write_log (w : Sink) (p : List Nat) : (w.Write p).2.log = w.log ++ [p] := by
  unfold Sink.Write
  split <;> rfl

theorem sink_write_nofail (w : Sink) (p : List Nat) (h : w.NoFail) :
    (w.Write p).1 = none ∧ (w.Write p).2.NoFail := by
  unfold Sink.Write
  unfold Sink.NoFail at h ⊢
  split
  · exact ⟨rfl, by simpa using h⟩
  · rename_i o rest heq
    rw [heq] at h
    exact ⟨h o (List.mem_cons_self _ _), fun x hx => h x (List.mem_cons_of_mem _ hx)⟩

/-- C7: for every record, sink and scratch buffer of any length and
contents, `WriteRecord` issues exactly one write to the sink, carrying the
24 bytes `EncodeRecord` produces for the record, and returns exactly the
error of that write (none when it succeeds); a buffer shorter than 24 bytes
is left unmodified. -/
theorem C7_write_record (w : Sink) (r : Record) (buffer : List Nat) :
    ∃ err w' buf', WriteRecord w r buffer = some (err, w', buf') ∧
      w'.log = w.log ++ [encodeBytes r] ∧ (encodeBytes r).length = 24 ∧
      (∀ dst, 24 ≤ dst.length →
        (EncodeRecord dst r).map (List.take 24) = some (encodeBytes r)) ∧
      (err, w') = w.Write (encodeBytes r) ∧
      err = w.script.head?.join ∧ w'.script = w.script.tail ∧
      (buffer.length < 24 → buf' = buffer) := by
  refine ⟨(w.Write (encodeBytes r)).1, (w.Write (encodeBytes r)).2, _, writeRecord_eq w r buffer,
    sink_write_log w _, rfl, ?_, rfl, ?_, ?_, ?_⟩
  · intro dst hd
    rw [encode_eq dst r hd, Option.map_some', take24_encodeBytes]
  · unfold Sink.Write
    split <;> simp [*]
  · unfold Sink.Write
    split <;> simp [*]
  · intro hb
    simp [hb]

open Gen

/-! ## The generator -/

theorem truncFloat32_value (v : F64) :
    float32Value (truncFloat32 v) =
      match v with
      | F64.nan => F64.nan
      | F64.inf b => F64.inf b
      | F64.nzero => F64.nzero
      | F64.fin q =>
        if q ≤ -1 then F64.fin (-1) else if q < 0 then F64.nzero
        else if q < 1 then F64.fin 0 else F64.fin 1 := by
  rcases v with _ | b | _ | q
  · norm_num [truncFloat32, float32Value]
  · cases b <;> norm_num [truncFloat32, float32Value]
  · norm_num [truncFloat32, float32Value]
  · simp only [truncFloat32]
    split_ifs <;> norm_num [float32Value]

theorem exactArith_lawful : exactArith.Lawful := by
  refine ⟨fun q => rfl, ?_, ?_, ?_, ?_, ?_, ?_⟩
  · intro x y hx hy
    rcases x with _ | _ | _ | p <;> rcases y with _ | _ | _ | q <;>
      simp_all [exactArith, fmul, F64.toRat?, F64.IsNaN]
  · intro x y hx hy
    rcases x with _ | _ | _ | p <;> rcases y with _ | _ | _ | q <;>
      simp_all [exactArith, fadd, F64.toRat?, F64.IsNaN]
  · intro v
    rcases v with _ | b | _ | q
    · norm_num [exactArith, truncFloat32]
    · cases b <;> norm_num [exactArith, truncFloat32]
    · norm_num [exactArith, truncFloat32]
    · simp only [exactArith, truncFloat32]
      split_ifs <;> norm_num
  · intro x y hxy
    show F64.le (float32Value (truncFloat32 x)) (float32Value (truncFloat32 y)) = true
    rw [truncFloat32_value, truncFloat32_value]
    rcases x with _ | a | _ | p <;> rcases y with _ | b | _ | q
    all_goals first
      | (simp [F64.le, F64.lt, F64.eq] at hxy; done)
      | (simp [F64.le, F64.lt, F64.eq]; done)
      | (cases a <;> cases b <;> simp [F64.le, F64.lt, F64.eq] at hxy ⊢; done)
      | (cases a <;> simp [F64.le, F64.lt, F64.eq] at hxy ⊢; done)
      | (cases b <;> simp [F64.le, F64.lt, F64.eq] at hxy ⊢; done)
      | (cases a <;> (simp only [F64.le, F64.lt, F64.eq] at hxy ⊢) <;> split_ifs <;>
          simp at hxy ⊢ <;> done)
      | (cases b <;> (simp only [F64.le, F64.lt, F64.eq] at hxy ⊢) <;> split_ifs <;>
          simp at hxy ⊢ <;> done)
      | ((simp only [F64.le, F64.lt, F64.eq] at hxy ⊢) <;> split_ifs <;>
          simp at hxy ⊢ <;> first | done | linarith | (rcases hxy with h | h <;> linarith))
  · show F64.eq (float32Value (truncFloat32 (F64.fin 0))) (F64.fin 0) = true
    rw [truncFloat32_value]
    norm_num [F64.eq]
  · show F64.eq (float32Value (truncFloat32 (F64.fin 1))) (F64.fin 1) = true
    rw [truncFloat32_value]
    norm_num [F64.eq]

theorem ext_le_helper (X Y : WithBot (WithTop ℚ)) :
    (∃ a b, some X = some a ∧ some Y = some b ∧ a ≤ b) ↔ X ≤ Y := by
  constructor
  · rintro ⟨a, b, ha, hb, hab⟩
    cases ha
    cases hb
    exact hab
  · intro h
    exact ⟨X, Y, rfl, rfl, h⟩

theorem ext_eq_helper (X Y : WithBot (WithTop ℚ)) :
    (∃ a, some X = some a ∧ some Y = some a) ↔ X = Y := by
  constructor
  · rintro ⟨a, ha, hb⟩
    cases ha
    cases hb
    rfl
  · intro h
    exact ⟨X, rfl, by rw [h]⟩

theorem F64.le_iff_ext (x y : F64) :
    F64.le x y = true ↔ ∃ a b, x.toExt? = some a ∧ y.toExt? = some b ∧ a ≤ b := by
  rcases x with _ | a | _ | p <;> rcases y with _ | b | _ | q
  all_goals first
    | (simp [F64.le, F64.lt, F64.eq, F64.toExt?, extOfRat]; done)
    | (cases a <;> cases b <;> simp [F64.le, F64.lt, F64.eq, F64.toExt?, extOfRat]; done)
    | (cases a <;> simp only [F64.toExt?, extOfRat, ext_le_helper] <;>
        simp [F64.le, F64.lt, F64.eq, -WithTop.coe_zero, -WithBot.coe_zero]; done)
    | (cases b <;> simp only [F64.toExt?, extOfRat, ext_le_helper] <;>
        simp [F64.le, F64.lt, F64.eq, -WithTop.coe_zero, -WithBot.coe_zero]; done)
    | (simp only [F64.toExt?, extOfRat, ext_le_helper, WithBot.coe_le_coe, WithTop.coe_le_coe]
       simp [F64.le, F64.lt, F64.eq, le_iff_lt_or_eq]; done)
    | (simp only [F64.toExt?, extOfRat, ext_le_helper, WithBot.coe_le_coe, WithTop.coe_le_coe]
       simp only [F64.le, F64.lt, F64.eq, Bool.or_eq_true, decide_eq_true_eq]
       constructor
       · rintro (h | h)
         · exact h.le
         · exact h.ge
       · intro h
         rcases h.lt_or_eq with h | h
         · exact Or.inl h
         · exact Or.inr h.symm)

theorem F64.eq_iff_ext (x y : F64) :
    F64.eq x y = true ↔ ∃ a, x.toExt? = some a ∧ y.toExt? = some a := by
  rcases x with _ | a | _ | p <;> rcases y with _ | b | _ | q
  all_goals first
    | (simp [F64.le, F64.lt, F64.eq, F64.toExt?, extOfRat]; done)
    | (cases a <;> cases b <;> simp [F64.le, F64.lt, F64.eq, F64.toExt?, extOfRat]; done)
    | (cases a <;> simp only [F64.toExt?, extOfRat, ext_eq_helper] <;>
        simp [F64.le, F64.lt, F64.eq, -WithTop.coe_zero, -WithBot.coe_zero]; done)
    | (cases b <;> simp only [F64.toExt?, extOfRat, ext_eq_helper] <;>
        simp [F64.le, F64.lt, F64.eq, -WithTop.coe_zero, -WithBot.coe_zero]; done)
    | (simp only [F64.toExt?, extOfRat, ext_eq_helper, WithBot.coe_inj, WithTop.coe_inj]
       simp [F64.le, F64.lt, F64.eq]; done)

theorem clamp01_inf (b : Bool) : clamp01 (F64.inf b) = if b then F64.fin 0 else F64.fin 1 := by
  cases b <;> norm_num [clamp01, F64.Max, F64.Min, F64.IsInf, F64.IsNaN, F64.eq, F64.lt]

theorem clamp01_nzero : clamp01 F64.nzero = F64.fin 0 := by
  norm_num [clamp01, F64.Max, F64.Min, F64.IsInf, F64.IsNaN, F64.eq, F64.lt, F64.Signbit]

theorem clamp01_fin (q : ℚ) :
    clamp01 (F64.fin q) = if q < 0 then F64.fin 0 else if 1 < q then F64.fin 1 else F64.fin q := by
  simp only [clamp01, F64.Max, F64.Min, F64.IsInf, F64.IsNaN, F64.eq, F64.lt, F64.Signbit]
  norm_num
  split_ifs <;> simp_all <;> linarith

theorem extOfRat_le (p q : ℚ) : extOfRat p ≤ extOfRat q ↔ p ≤ q := by
  simp only [extOfRat, WithBot.coe_le_coe, WithTop.coe_le_coe]

theorem extOfRat_clamp (q : ℚ) :
    max (extOfRat 0) (min (extOfRat 1) (extOfRat q)) = extOfRat (max 0 (min 1 q)) := by
  simp only [extOfRat, WithTop.coe_min, WithTop.coe_max, WithBot.coe_min, WithBot.coe_max]

theorem clamp01_ext (v : F64) (hv : v.IsNaN = false) :
    ∃ e, v.toExt? = some e ∧
      (clamp01 v).toExt? = some (max (extOfRat 0) (min (extOfRat 1) e)) := by
  rcases v with _ | b | _ | q
  · simp [F64.IsNaN] at hv
  · cases b
    · refine ⟨_, rfl, ?_⟩
      rw [clamp01_inf]
      have h1 : min (extOfRat 1) ((⊤ : WithTop ℚ) : WithBot (WithTop ℚ)) = extOfRat 1 := by
        apply min_eq_left
        simp only [extOfRat, WithBot.coe_le_coe, le_top]
      have h2 : max (extOfRat 0) (extOfRat 1) = extOfRat 1 := by
        apply max_eq_right
        rw [extOfRat_le]
        norm_num
      rw [h1, h2]
      rfl
    · refine ⟨_, rfl, ?_⟩
      rw [clamp01_inf]
      have h1 : min (extOfRat 1) (⊥ : WithBot (WithTop ℚ)) = ⊥ := min_eq_right bot_le
      have h2 : max (extOfRat 0) (⊥ : WithBot (WithTop ℚ)) = extOfRat 0 := max_eq_left bot_le
      rw [h1, h2]
      rfl
  · refine ⟨_, rfl, ?_⟩
    rw [clamp01_nzero, extOfRat_clamp]
    norm_num [F64.toExt?]
  · refine ⟨_, rfl, ?_⟩
    rw [clamp01_fin, extOfRat_clamp]
    split_ifs with h1 h2
    · rw [min_eq_right (by linarith), max_eq_left h1.le]
      rfl
    · rw [min_eq_left h2.le, max_eq_right (by norm_num)]
      rfl
    · rw [min_eq_right (by linarith), max_eq_right (by linarith)]
      rfl

theorem inUnit_iff (v : F64) :
    v.inUnit = true ↔ ∃ e, v.toExt? = some e ∧ extOfRat 0 ≤ e ∧ e ≤ extOfRat 1 := by
  simp only [F64.inUnit, Bool.and_eq_true, F64.le_iff_ext]
  constructor
  · rintro ⟨⟨a, b, ha, hb, hab⟩, ⟨c, d, hc, hd, hcd⟩⟩
    rw [hb] at hc
    cases hc
    cases ha
    cases hd
    exact ⟨b, hb, hab, hcd⟩
  · rintro ⟨e, he, h0, h1⟩
    exact ⟨⟨_, e, rfl, he, h0⟩, ⟨e, _, he, rfl, h1⟩⟩

theorem clamp01_inUnit (v : F64) (hv : v.IsNaN = false) : (clamp01 v).inUnit = true := by
  obtain ⟨e, -, he⟩ := clamp01_ext v hv
  rw [inUnit_iff]
  refine ⟨_, he, le_max_left _ _, max_le ?_ (min_le_left _ _)⟩
  rw [extOfRat_le]
  norm_num

theorem narrow_inUnit (A : Arith) (hA : A.Lawful) (v : F64) (hv : v.inUnit = true) :
    (float32Value (A.toFloat32 v)).inUnit = true := by
  simp only [F64.inUnit, Bool.and_eq_true] at hv
  obtain ⟨a, b, ha, hb, hab⟩ := (F64.le_iff_ext _ _).1 (hA.narrow_mono _ _ hv.1)
  obtain ⟨c, d, hc, hd, hcd⟩ := (F64.le_iff_ext _ _).1 (hA.narrow_mono _ _ hv.2)
  obtain ⟨z, hz, hz'⟩ := (F64.eq_iff_ext _ _).1 hA.narrow_zero
  obtain ⟨o, ho, ho'⟩ := (F64.eq_iff_ext _ _).1 hA.narrow_one
  rw [hz] at ha
  rw [ho] at hd
  rw [hb] at hc
  cases ha
  cases hd
  cases hc
  cases hz'
  cases ho'
  rw [inUnit_iff]
  exact ⟨_, hb, hab, hcd⟩

theorem channel_inUnit (A : Arith) (hA : A.Lawful) (base n : F64)
    (hb : base.toRat?.isSome = true) (hn : n.toRat?.isSome = true) :
    (float32Value (channel A base n)).inUnit = true :=
  narrow_inUnit A hA _ (clamp01_inUnit _
    (hA.add_finite _ _ hb (hA.mul_finite _ _ hn (hA.lit_finite _))))

/-- C6: for every value `v` that is not NaN, `clamp01(v)` is
max(0, min(1, v)), lies in [0, 1], equals `v` when 0 ≤ v ≤ 1, is 0 when
v < 0 and 1 when v > 1; and under the IEEE-754 laws of the arithmetic, for
every finite base colour and every finite normal sample the R, G and B of
the constructed record, each `float32(clamp01(base + sample * 0.05))`, lie
in [0, 1]. -/
theorem C6_clamp01_bounds (v : F64) (hv : v.IsNaN = false) (A : Arith) (hA : A.Lawful)
    (c : Cluster) (g : Rng) (hR : c.baseR.toRat?.isSome = true)
    (hG : c.baseG.toRat?.isSome = true) (hB : c.baseB.toRat?.isSome = true)
    (hg : ∀ i, (g.draws i).toRat?.isSome = true) :
    (∃ e, v.toExt? = some e ∧
      (clamp01 v).toExt? = some (max (extOfRat 0) (min (extOfRat 1) e))) ∧
    (clamp01 v).inUnit = true ∧
    (F64.le (F64.fin 0) v = true → F64.le v (F64.fin 1) = true →
      F64.eq (clamp01 v) v = true) ∧
    (F64.lt v (F64.fin 0) = true → clamp01 v = F64.fin 0) ∧
    (F64.lt (F64.fin 1) v = true → clamp01 v = F64.fin 1) ∧
    (drawPoint A c g).1.R = A.toFloat32 (clamp01 (A.add c.baseR
      (A.mul (g.draws (g.pos + 3)) (A.lit (5 / 100))))) ∧
    (drawPoint A c g).1.G = A.toFloat32 (clamp01 (A.add c.baseG
      (A.mul (g.draws (g.pos + 4)) (A.lit (5 / 100))))) ∧
    (drawPoint A c g).1.B = A.toFloat32 (clamp01 (A.add c.baseB
      (A.mul (g.draws (g.pos + 5)) (A.lit (5 / 100))))) ∧
    (float32Value (drawPoint A c g).1.R).inUnit = true ∧
    (float32Value (drawPoint A c g).1.G).inUnit = true ∧
    (float32Value (drawPoint A c g).1.B).inUnit = true := by
  refine ⟨clamp01_ext v hv, clamp01_inUnit v hv, ?_, ?_, ?_, rfl, rfl, rfl,
    channel_inUnit A hA _ _ hR (hg _), channel_inUnit A hA _ _ hG (hg _),
    channel_inUnit A hA _ _ hB (hg _)⟩
  · intro h0 h1
    rcases v with _ | b | _ | q
    · simp [F64.IsNaN] at hv
    · cases b <;> simp [F64.le, F64.lt, F64.eq] at h0 h1
    · rw [clamp01_nzero]
      simp [F64.eq]
    · rw [clamp01_fin]
      simp only [F64.le, F64.lt, F64.eq, Bool.or_eq_true, decide_eq_true_eq] at h0 h1
      have q0 : ¬ q < 0 := by rcases h0 with h | h <;> linarith
      have q1 : ¬ 1 < q := by rcases h1 with h | h <;> linarith
      simp [q0, q1, F64.eq]
  · intro h
    rcases v with _ | b | _ | q
    · simp [F64.IsNaN] at hv
    · cases b
      · simp [F64.lt] at h
      · rw [clamp01_inf]; rfl
    · exact clamp01_nzero
    · rw [clamp01_fin]
      simp only [F64.lt, decide_eq_true_eq] at h
      simp [h]
  · intro h
    rcases v with _ | b | _ | q
    · simp [F64.IsNaN] at hv
    · cases b
      · rw [clamp01_inf]; rfl
      · simp [F64.lt] at h
    · norm_num [F64.lt] at h
    · rw [clamp01_fin]
      simp only [F64.lt, decide_eq_true_eq] at h
      have q0 : ¬ q < 0 := by linarith
      simp [h, q0]

theorem C6_clamp01_bounds_witness :
    (clamp01 (F64.inf false)).inUnit = true ∧
    (float32Value (drawPoint exactArith
      ⟨F64.fin 0, F64.fin 0, F64.fin 0, F64.fin 1, F64.fin 1, F64.fin 1,
        F64.fin (1 / 5), F64.fin (1 / 2), F64.fin (4 / 5)⟩
      ⟨fun i => F64.fin (1000000 * i), 0⟩).1.R).inUnit = true :=
  have h := C6_clamp01_bounds (F64.inf false) rfl exactArith exactArith_lawful
    ⟨F64.fin 0, F64.fin 0, F64.fin 0, F64.fin 1, F64.fin 1, F64.fin 1,
      F64.fin (1 / 5), F64.fin (1 / 2), F64.fin (4 / 5)⟩
    ⟨fun i => F64.fin (1000000 * i), 0⟩ rfl rfl rfl (fun _ => rfl)
  ⟨h.2.1, h.2.2.2.2.2.2.2.2.1⟩

theorem pointsOf_succ (A : Arith) (c : Cluster) (draws : Nat → F64) (pos n : Nat) :
    pointsOf A c draws pos (n + 1) =
      encodeBytes (drawPoint A c ⟨draws, pos⟩).1 :: pointsOf A c draws (pos + 6) n := by
  unfold pointsOf
  rw [List.range_succ_eq_map, List.map_cons, List.map_map]
  congr 1
  apply List.map_congr_left
  intro i _
  simp only [Function.comp, Nat.succ_eq_add_one]
  congr 3
  ring_nf

theorem pointLoop_ok (A : Arith) (c : Cluster) (n : Nat) (s : GenState)
    (hw : s.writer.NoFail) :
    ∃ s', pointLoop A c n s = some (GenExit.done, s') ∧
      s'.rng = ⟨s.rng.draws, s.rng.pos + 6 * n⟩ ∧
      s'.writer.log = s.writer.log ++ pointsOf A c s.rng.draws s.rng.pos n ∧
      s'.writer.NoFail := by
  induction n generalizing s with
  | zero => exact ⟨s, rfl, rfl, by simp [pointsOf], hw⟩
  | succ n ih =>
    obtain ⟨herr, hnf⟩ := sink_write_nofail s.writer
      (encodeBytes (drawPoint A c s.rng).1) hw
    have hstep : pointLoop A c (n + 1) s = pointLoop A c n
        ⟨(drawPoint A c s.rng).2, (s.writer.Write (encodeBytes (drawPoint A c s.rng).1)).2,
          if s.buffer.length < 24 then s.buffer
          else encodeBytes (drawPoint A c s.rng).1 ++ s.buffer.drop 24⟩ := by
      rw [pointLoop]
      simp only [writeRecord_eq, herr]
    obtain ⟨s', h1, h2, h3, h4⟩ := ih
        ⟨(drawPoint A c s.rng).2, (s.writer.Write (encodeBytes (drawPoint A c s.rng).1)).2,
          if s.buffer.length < 24 then s.buffer
          else encodeBytes (drawPoint A c s.rng).1 ++ s.buffer.drop 24⟩ hnf
    refine ⟨s', hstep.trans h1, ?_, ?_, h4⟩
    · rw [h2]
      show (⟨s.rng.draws, s.rng.pos + 1 + 1 + 1 + 1 + 1 + 1 + 6 * n⟩ : Rng) = _
      congr 1
      omega
    · rw [h3, sink_write_log, pointsOf_succ, List.append_assoc]
      rfl

theorem cloudsOf_succ (A : Arith) (p : Nat) (draws : Nat → F64) (pos n : Nat) :
    cloudsOf A p draws pos (n + 1) =
      pointsOf A (drawCluster A ⟨draws, pos⟩).1 draws (pos + 9) p
        ++ cloudsOf A p draws (pos + 9 + 6 * p) n := by
  unfold cloudsOf
  rw [List.range_succ_eq_map, List.flatMap_cons, List.flatMap_map]
  congr 1
  · simp
  · apply List.flatMap_congr
    intro k _
    have e : pos + k.succ * (9 + 6 * p) = pos + 9 + 6 * p + k * (9 + 6 * p) := by
      rw [Nat.succ_mul]; omega
    rw [e]

theorem cloudLoop_ok (A : Arith) (p n : Nat) (s : GenState) (hw : s.writer.NoFail) :
    ∃ s', cloudLoop A p n s = some (GenExit.done, s') ∧
      s'.rng = ⟨s.rng.draws, s.rng.pos + n * (9 + 6 * p)⟩ ∧
      s'.writer.log = s.writer.log ++ cloudsOf A p s.rng.draws s.rng.pos n ∧
      s'.writer.NoFail := by
  induction n generalizing s with
  | zero => exact ⟨s, rfl, by simp, by simp [cloudsOf], hw⟩
  | succ n ih =>
    obtain ⟨s1, h1, h2, h3, h4⟩ := pointLoop_ok A (drawCluster A s.rng).1 p
      ⟨(drawCluster A s.rng).2, s.writer, s.buffer⟩ hw
    have hstep : cloudLoop A p (n + 1) s = cloudLoop A p n s1 := by
      rw [cloudLoop]
      simp only [h1]
    obtain ⟨s', g1, g2, g3, g4⟩ := ih s1 h4
    have hpos : (drawCluster A s.rng).2 = ⟨s.rng.draws, s.rng.pos + 9⟩ := rfl
    simp only [hpos] at h2 h3
    refine ⟨s', hstep.trans g1, ?_, ?_, g4⟩
    · rw [g2, h2]
      have e : s.rng.pos + 9 + 6 * p + n * (9 + 6 * p) = s.rng.pos + (n + 1) * (9 + 6 * p) := by
        rw [Nat.add_mul, Nat.one_mul]; omega
      show (⟨s.rng.draws, s.rng.pos + 9 + 6 * p + n * (9 + 6 * p)⟩ : Rng) = _
      rw [e]
    · rw [g3, h3, h2, cloudsOf_succ, List.append_assoc]

theorem grid_length {α : Type} (f : Nat → Nat → α) (c p : Nat) :
    ((List.range c).flatMap (fun k => (List.range p).map (f k))).length = c * p := by
  induction c with
  | zero => simp
  | succ c ih =>
    rw [List.range_succ, List.flatMap_append, List.length_append, ih]
    simp [Nat.succ_mul]

theorem grid_getElem {α : Type} (f : Nat → Nat → α) (c p k i : Nat) (hk : k < c) (hi : i < p) :
    ((List.range c).flatMap (fun k => (List.range p).map (f k)))[k * p + i]? = some (f k i) := by
  induction c with
  | zero => omega
  | succ c ih =>
    rw [List.range_succ, List.flatMap_append]
    by_cases hkc : k < c
    · have hlt : k * p + i < c * p := by
        have : (k + 1) * p ≤ c * p := Nat.mul_le_mul_right p hkc
        rw [Nat.add_mul, Nat.one_mul] at this
        omega
      rw [List.getElem?_append_left (by rw [grid_length]; exact hlt)]
      exact ih hkc
    · have hkc' : k = c := by omega
      subst hkc'
      rw [List.getElem?_append_right (by rw [grid_length]; omega), grid_length]
      simp [hi]

theorem flatten_length_const {α : Type} (W : List (List α)) (m : Nat)
    (h : ∀ x ∈ W, x.length = m) : W.flatten.length = W.length * m := by
  induction W with
  | nil => simp
  | cons x W ih =>
    rw [List.flatten_cons, List.length_append, h x (List.mem_cons_self _ _),
      ih (fun y hy => h y (List.mem_cons_of_mem _ hy)), List.length_cons, Nat.succ_mul]
    omega

/-- C4: for positive `cloudCount` and `pointsPerCloud` and every sequence of
random draws, when no write of the sink fails the generation loop runs to
completion and writes exactly `cloudCount * pointsPerCloud` slices, write
number `k * pointsPerCloud + i` being the 24-byte encoding of point `i` of
cluster `k` (so cluster `k` is written entirely before cluster `k + 1`), with
nothing in between; the bytes written number `cloudCount * pointsPerCloud *
24`, which is 72000 for 3 clusters of 1000 points. -/
theorem C4_generation_output (A : Arith) (cloudCount pointsPerCloud : Nat)
    (hc : 0 < cloudCount) (hp : 0 < pointsPerCloud) (rng : Rng) (writer : Sink)
    (hw : writer.NoFail) :
    ∃ s' W, generate A cloudCount pointsPerCloud rng writer = some (GenExit.done, s') ∧
      s'.writer.log = writer.log ++ W ∧
      W = (List.range cloudCount).flatMap (fun k => (List.range pointsPerCloud).map
        (fun i => encodeBytes (recordAt A pointsPerCloud rng k i))) ∧
      W.length = cloudCount * pointsPerCloud ∧
      (∀ k i, k < cloudCount → i < pointsPerCloud →
        W[k * pointsPerCloud + i]? = some (encodeBytes (recordAt A pointsPerCloud rng k i)) ∧
        (encodeBytes (recordAt A pointsPerCloud rng k i)).length = 24 ∧
        ∀ dst, 24 ≤ dst.length →
          (EncodeRecord dst (recordAt A pointsPerCloud rng k i)).map (List.take 24)
            = some (encodeBytes (recordAt A pointsPerCloud rng k i))) ∧
      (∀ x ∈ W, x.length = 24) ∧
      W.flatten.length = cloudCount * pointsPerCloud * 24 ∧
      (cloudCount = 3 → pointsPerCloud = 1000 → W.flatten.length = 72000) := by
  obtain ⟨s', h1, -, h3, -⟩ := cloudLoop_ok A pointsPerCloud cloudCount
    ⟨rng, writer, List.replicate RecordSize 0⟩ hw
  have hall : ∀ x ∈ (List.range cloudCount).flatMap (fun k => (List.range pointsPerCloud).map
      (fun i => encodeBytes (recordAt A pointsPerCloud rng k i))), x.length = 24 := by
    intro x hx
    simp only [List.mem_flatMap, List.mem_map] at hx
    obtain ⟨k, -, i, -, rfl⟩ := hx
    exact encodeBytes_length _
  have hlen := flatten_length_const _ 24 hall
  rw [grid_length] at hlen
  refine ⟨s', (List.range cloudCount).flatMap (fun k => (List.range pointsPerCloud).map
      (fun i => encodeBytes (recordAt A pointsPerCloud rng k i))), h1, h3, rfl,
    grid_length _ _ _, ?_, hall, hlen, ?_⟩
  · intro k i hk hi
    refine ⟨grid_getElem _ _ _ k i hk hi, encodeBytes_length _, ?_⟩
    intro dst hd
    rw [encode_eq dst _ hd, Option.map_some', take24_encodeBytes]
  · intro h3' h1000
    rw [hlen, h3', h1000]

theorem C4_generation_output_witness :
    ∃ s', generate exactArith 2 3 ⟨fun i => F64.fin i, 0⟩ ⟨[], [none]⟩
        = some (GenExit.done, s') ∧ s'.writer.log.flatten.length = 2 * 3 * 24 :=
  have ⟨s', _, h1, h2, _, _, _, _, h7, _⟩ := C4_generation_output exactArith 2 3 (by decide)
    (by decide) ⟨fun i => F64.fin i, 0⟩ ⟨[], [none]⟩ (by decide)
  ⟨s', h1, by rw [h2]; exact h7⟩

/-! ## The streaming loop -/

open Stream

theorem run_of_loop (c : Nat) (fuel : Nat) (b : Reader) (cl : Client) (x : Exit)
    (evs : List Event) (h : streamLoop c fuel b cl = some (x, evs)) : Run c b cl x evs := by
  induction fuel generalizing b cl x evs with
  | zero => simp [streamLoop] at h
  | succ fuel ih =>
    rw [streamLoop] at h
    rcases hr : b.Read c with ⟨p, e, b'⟩
    rw [hr] at h
    simp only at h
    by_cases hp : 0 < p.length
    · rw [if_pos hp] at h
      rcases hw : clientWrite cl p with ⟨k, ok, cl'⟩
      rw [hw] at h
      cases ok
      · simp only [Option.some.injEq, Prod.mk.injEq] at h
        obtain ⟨rfl, rfl⟩ := h
        exact Run.writeFail hr hp hw
      · simp only at h
        rcases e with _ | e
        · simp only [afterRead, Option.map_eq_some'] at h
          obtain ⟨⟨x', evs'⟩, h1, h2⟩ := h
          simp only [Prod.mk.injEq] at h2
          obtain ⟨rfl, rfl⟩ := h2
          exact Run.chunk hr hp hw (ih _ _ _ _ h1)
        · cases e <;> simp only [afterRead, Option.some.injEq, Prod.mk.injEq] at h <;>
            obtain ⟨rfl, rfl⟩ := h <;> exact Run.lastChunk hr hp hw
    · rw [if_neg hp] at h
      rcases e with _ | e
      · simp only [afterRead, Option.map_eq_some'] at h
        obtain ⟨⟨x', evs'⟩, h1, h2⟩ := h
        simp only [Prod.mk.injEq] at h2
        obtain ⟨rfl, rfl⟩ := h2
        exact Run.idle hr hp (ih _ _ _ _ h1)
      · cases e <;> simp only [afterRead, Option.some.injEq, Prod.mk.injEq] at h <;>
          obtain ⟨rfl, rfl⟩ := h <;> exact Run.stop hr hp

theorem loop_of_run (c : Nat) (b : Reader) (cl : Client) (x : Exit) (evs : List Event)
    (h : Run c b cl x evs) : ∃ n, ∀ fuel, n ≤ fuel → streamLoop c fuel b cl = some (x, evs) := by
  induction h with
  | writeFail hr hp hw =>
    refine ⟨1, fun fuel hf => ?_⟩
    obtain ⟨m, rfl⟩ : ∃ m, fuel = m + 1 := ⟨fuel - 1, by omega⟩
    rw [streamLoop, hr]
    simp only [if_pos hp, hw]
  | lastChunk hr hp hw =>
    rename_i e _ _
    refine ⟨1, fun fuel hf => ?_⟩
    obtain ⟨m, rfl⟩ : ∃ m, fuel = m + 1 := ⟨fuel - 1, by omega⟩
    rw [streamLoop, hr]
    simp only [if_pos hp, hw]
    cases e <;> rfl
  | chunk hr hp hw _ ih =>
    obtain ⟨n, hn⟩ := ih
    refine ⟨n + 1, fun fuel hf => ?_⟩
    obtain ⟨m, rfl⟩ : ∃ m, fuel = m + 1 := ⟨fuel - 1, by omega⟩
    rw [streamLoop, hr]
    simp only [if_pos hp, hw, afterRead, hn m (by omega), Option.map_some']
    rfl
  | stop hr hp =>
    rename_i e _
    refine ⟨1, fun fuel hf => ?_⟩
    obtain ⟨m, rfl⟩ : ∃ m, fuel = m + 1 := ⟨fuel - 1, by omega⟩
    rw [streamLoop, hr]
    simp only [if_neg hp]
    cases e <;> rfl
  | idle hr hp _ ih =>
    obtain ⟨n, hn⟩ := ih
    refine ⟨n + 1, fun fuel hf => ?_⟩
    obtain ⟨m, rfl⟩ : ∃ m, fuel = m + 1 := ⟨fuel - 1, by omega⟩
    rw [streamLoop, hr]
    simp only [if_neg hp, afterRead, hn m (by omega), Option.map_some']
    rfl

/-- What one read of the source guarantees. -/
theorem source_read_spec (f : Source) (len : Nat) (hlen : 0 < len) :
    (f.Read len).1 ++ (f.Read len).2.2.data = f.data ∧
    (f.Read len).1.length ≤ len ∧
    (f.Read len).2.2.plan.length ≤ f.plan.length ∧
    ((f.Read len).2.1 = none →
      (f.Read len).2.2.plan.length + (f.Read len).2.2.data.length
        < f.plan.length + f.data.length) ∧
    ((f.Read len).2.1 = some ReadErr.EOF → (f.Read len).2.2.data = []) ∧
    ((∀ s ∈ f.plan, s.fault = false) →
      (f.Read len).2.1 ≠ some ReadErr.other ∧ ∀ s ∈ (f.Read len).2.2.plan, s.fault = false) := by
  have hne : len ≠ 0 := by omega
  obtain ⟨data, plan⟩ := f
  unfold Source.Read
  rw [if_neg hne]
  rcases plan with _ | ⟨s, rest⟩
  · by_cases hd : data = []
    · subst hd
      simp
    · have hpos : 0 < data.length := List.length_pos.2 hd
      simp only [hd, if_false, List.take_append_drop, List.length_take, List.length_drop,
        List.length_nil, true_and]
      refine ⟨by omega, le_refl _, fun _ => by omega, by simp, by simp⟩
  · simp only [List.take_append_drop, List.length_take, List.length_drop, List.length_cons,
      true_and]
    refine ⟨by omega, by omega, fun _ => by omega, ?_, ?_⟩
    · intro h
      by_cases hf : s.fault = true
      · simp [hf] at h
      · simp only [hf, if_false] at h
        by_cases hc : data = [] ∨ (s.eager = true ∧ List.drop (min s.limit len) data = [])
        · rcases hc with hc | hc
          · simp [hc]
          · exact hc.2
        · rw [if_neg hc] at h
          simp at h
    · intro h
      have hs := h s (List.mem_cons_self _ _)
      refine ⟨?_, fun t ht => h t (List.mem_cons_of_mem _ ht)⟩
      simp only [hs, Bool.false_eq_true, if_false]
      split <;> simp

theorem reader_read_spec (b : Reader) (len : Nat) (hlen : 0 < len) (hI : ReaderInv b) :
    (b.Read len).1 ++ (b.Read len).2.2.pending = b.pending ∧
    (b.Read len).1.length ≤ len ∧
    ((b.Read len).2.1 = none → (b.Read len).2.2.measure < b.measure) ∧
    ((b.Read len).2.1 = some ReadErr.EOF → (b.Read len).2.2.pending = []) ∧
    ReaderInv (b.Read len).2.2 ∧
    (NoFault b → (b.Read len).2.1 ≠ some ReadErr.other ∧ NoFault (b.Read len).2.2) ∧
    (b.Read len).2.2.size = b.size := by
  have hne : len ≠ 0 := by omega
  obtain ⟨rd, size, buf, err⟩ := b
  unfold Reader.Read
  simp only [if_neg hne]
  by_cases hb : buf = []
  · subst hb
    simp only [if_true]
    by_cases he : err ≠ none
    · simp only [if_pos he, Reader.pending, Reader.measure, ReaderInv, NoFault]
      refine ⟨rfl, by simp, fun h => absurd h he, ?_, by simp, ?_, trivial⟩
      · intro h
        simpa using hI h
      · intro h
        exact ⟨h.1, by simp, h.2⟩
    · simp only [if_neg he]
      have he' : err = none := by simpa using he
      subst he'
      by_cases hs : size ≤ len
      · simp only [if_pos hs]
        obtain ⟨s1, s2, s3, s4, s5, s6⟩ := source_read_spec rd len hlen
        rcases hr : rd.Read len with ⟨p, e, rd'⟩
        rw [hr] at s1 s2 s3 s4 s5 s6
        simp only at s1 s2 s3 s4 s5 s6
        simp only [Reader.pending, Reader.measure, ReaderInv, NoFault, List.nil_append,
          List.length_nil, Nat.add_zero]
        refine ⟨s1, s2, s4, s5, by simp, ?_, trivial⟩
        intro h
        exact ⟨(s6 h.2).1, by simp, (s6 h.2).2⟩
      · simp only [if_neg hs]
        have hsz : 0 < size := by omega
        obtain ⟨s1, s2, s3, s4, s5, s6⟩ := source_read_spec rd size hsz
        rcases hr : rd.Read size with ⟨p, e, rd'⟩
        rw [hr] at s1 s2 s3 s4 s5 s6
        simp only at s1 s2 s3 s4 s5 s6
        by_cases hp : p.length = 0
        · simp only [if_pos hp, Reader.pending, Reader.measure, ReaderInv, NoFault,
            List.nil_append, List.length_nil, Nat.add_zero]
          have hp' : p = [] := List.length_eq_zero.1 hp
          subst hp'
          refine ⟨s1, by simp, s4, s5, by simp, ?_, trivial⟩
          intro h
          exact ⟨(s6 h.2).1, by simp, (s6 h.2).2⟩
        · simp only [if_neg hp, Reader.pending, Reader.measure, ReaderInv, NoFault,
            List.nil_append, List.length_nil, Nat.add_zero]
          have hlen' : rd.data.length = p.length + rd'.data.length := by
            rw [← s1, List.length_append]
          refine ⟨?_, ?_, ?_, by simp, s5, ?_, trivial⟩
          · rw [← List.append_assoc, List.take_append_drop, s1]
          · rw [List.length_take]; omega
          · intro _
            rw [List.length_drop]
            omega
          · intro h
            exact ⟨by simp, (s6 h.2).1, (s6 h.2).2⟩
  · simp only [if_neg hb, Reader.pending, Reader.measure, ReaderInv, NoFault]
    have hpos : 0 < buf.length := List.length_pos.2 hb
    refine ⟨?_, ?_, ?_, by simp, hI, fun h => ⟨by simp, h⟩, trivial⟩
    · rw [← List.append_assoc, List.take_append_drop]
    · rw [List.length_take]; omega
    · intro _
      rw [List.length_drop]
      omega

theorem clientWrite_spec (cl : Client) (p : List Nat) :
    (clientWrite cl p).1 ≤ p.length ∧
    ((clientWrite cl p).2.1 = true → (clientWrite cl p).1 = p.length) ∧
    ((∀ o ∈ cl, o = none) →
      (clientWrite cl p).2.1 = true ∧ ∀ o ∈ (clientWrite cl p).2.2, o = none) := by
  rcases cl with _ | ⟨o, rest⟩
  · simp [clientWrite]
  · rcases o with _ | k
    · exact ⟨le_refl _, fun _ => rfl,
        fun h => ⟨rfl, fun o ho => h o (List.mem_cons_of_mem _ ho)⟩⟩
    · simp only [clientWrite]
      refine ⟨Nat.min_le_right _ _, by simp, ?_⟩
      intro h
      have := h (some k) (List.mem_cons_self _ _)
      simp at this

theorem run_exists (c : Nat) (hc : 0 < c) :
    ∀ (n : Nat) (b : Reader) (cl : Client), b.measure < n → ReaderInv b →
      ∃ x evs, Run c b cl x evs := by
  intro n
  induction n with
  | zero => intro b cl h; omega
  | succ n ih =>
    intro b cl hm hI
    obtain ⟨-, -, r3, -, r5, -, -⟩ := reader_read_spec b c hc hI
    rcases hr : b.Read c with ⟨p, e, b'⟩
    rw [hr] at r3 r5
    simp only at r3 r5
    by_cases hp : 0 < p.length
    · rcases hw : clientWrite cl p with ⟨k, ok, cl'⟩
      cases ok
      · exact ⟨_, _, Run.writeFail hr hp hw⟩
      · rcases e with _ | e
        · obtain ⟨x, evs, h⟩ := ih b' cl' (by have := r3 rfl; omega) r5
          exact ⟨_, _, Run.chunk hr hp hw h⟩
        · exact ⟨_, _, Run.lastChunk hr hp hw⟩
    · rcases e with _ | e
      · obtain ⟨x, evs, h⟩ := ih b' cl (by have := r3 rfl; omega) r5
        exact ⟨_, _, Run.idle hr hp h⟩
      · exact ⟨_, _, Run.stop hr hp⟩

theorem run_spec (c : Nat) (hc : 0 < c) (b : Reader) (cl : Client) (x : Exit)
    (evs : List Event) (h : Run c b cl x evs) (hI : ReaderInv b) :
    (∃ rest, (writes evs).flatten ++ rest = b.pending ∧ (x = Exit.completed → rest = [])) ∧
    (∃ rest, delivered evs ++ rest = (writes evs).flatten ∧
      (x ≠ Exit.writeFailed → rest = [])) ∧
    (∀ w ∈ writes evs, 0 < w.length ∧ w.length ≤ c) ∧
    (NoFault b → x ≠ Exit.readFailed) ∧
    ((∀ o ∈ cl, o = none) → x ≠ Exit.writeFailed) := by
  induction h with
  | @writeFail b cl cl' p e b' k hr hp hw =>
    obtain ⟨r1, r2, -, -, -, -, -⟩ := reader_read_spec b c hc hI
    obtain ⟨w1, -, w3⟩ := clientWrite_spec cl p
    rw [hr] at r1 r2
    rw [hw] at w1 w3
    simp only at r1 r2 w1 w3
    refine ⟨⟨b'.pending, by simpa [writes] using r1, by simp⟩,
      ⟨p.drop k, by simp [writes, delivered], by simp⟩, ?_, by simp, ?_⟩
    · intro w hw'
      simp only [writes, List.mem_singleton] at hw'
      subst hw'
      exact ⟨hp, r2⟩
    · intro hcl
      simpa using (w3 hcl).1
  | @lastChunk b cl cl' p e b' k hr hp hw =>
    obtain ⟨r1, r2, -, r4, -, r6, -⟩ := reader_read_spec b c hc hI
    obtain ⟨-, w2, -⟩ := clientWrite_spec cl p
    rw [hr] at r1 r2 r4 r6
    rw [hw] at w2
    simp only at r1 r2 r4 r6 w2
    have hk : k = p.length := w2 trivial
    refine ⟨⟨b'.pending, by simpa [writes] using r1, ?_⟩,
      ⟨[], by simp [writes, delivered, hk], by simp⟩, ?_, ?_, ?_⟩
    · intro hx
      cases e
      · exact r4 rfl
      · simp [exitOf] at hx
    · intro w hw'
      simp only [writes, List.mem_singleton] at hw'
      subst hw'
      exact ⟨hp, r2⟩
    · intro hnf
      cases e
      · simp [exitOf]
      · exact absurd rfl (r6 hnf).1
    · intro _
      cases e <;> simp [exitOf]
  | @chunk b cl cl' p b' k x evs hr hp hw _ ih =>
    obtain ⟨r1, r2, -, -, r5, r6, -⟩ := reader_read_spec b c hc hI
    obtain ⟨-, w2, w3⟩ := clientWrite_spec cl p
    rw [hr] at r1 r2 r5 r6
    rw [hw] at w2 w3
    simp only at r1 r2 r5 r6 w2 w3
    have hk : k = p.length := w2 trivial
    obtain ⟨⟨rest, i1, i1'⟩, ⟨rest2, i2, i2'⟩, i3, i4, i5⟩ := ih r5
    refine ⟨⟨rest, ?_, i1'⟩, ⟨rest2, ?_, i2'⟩, ?_, ?_, ?_⟩
    · simp only [writes, List.flatten_cons, List.append_assoc]
      rw [i1, r1]
    · simp only [writes, delivered, List.flatten_cons, List.append_assoc, hk, List.take_length]
      rw [i2]
    · intro w hw'
      simp only [writes, List.mem_cons] at hw'
      rcases hw' with rfl | hw'
      · exact ⟨hp, r2⟩
      · exact i3 w hw'
    · intro hnf
      exact i4 (r6 hnf).2
    · intro hcl
      exact i5 (w3 hcl).2
  | @stop b cl p e b' hr hp =>
    obtain ⟨r1, -, -, r4, -, r6, -⟩ := reader_read_spec b c hc hI
    rw [hr] at r1 r4 r6
    simp only at r1 r4 r6
    have hp' : p = [] := List.length_eq_zero.1 (by omega)
    subst hp'
    refine ⟨⟨b'.pending, by simpa [writes] using r1, ?_⟩, ⟨[], by simp [writes, delivered],
      by simp⟩, by simp [writes], ?_, ?_⟩
    · intro hx
      cases e
      · exact r4 rfl
      · simp [exitOf] at hx
    · intro hnf
      cases e
      · simp [exitOf]
      · exact absurd rfl (r6 hnf).1
    · intro _
      cases e <;> simp [exitOf]
  | @idle b cl p b' x evs hr hp _ ih =>
    obtain ⟨r1, -, -, -, r5, r6, -⟩ := reader_read_spec b c hc hI
    rw [hr] at r1 r5 r6
    simp only at r1 r5 r6
    have hp' : p = [] := List.length_eq_zero.1 (by omega)
    subst hp'
    obtain ⟨⟨rest, i1, i1'⟩, ⟨rest2, i2, i2'⟩, i3, i4, i5⟩ := ih r5
    refine ⟨⟨rest, ?_, i1'⟩, ⟨rest2, ?_, i2'⟩, ?_, fun hnf => i4 (r6 hnf).2, i5⟩
    · simp only [writes]
      rw [i1, ← r1, List.nil_append]
    · simpa only [writes, delivered] using i2
    · simpa only [writes] using i3

theorem delivered_append (xs ys : List Event) :
    delivered (xs ++ ys) = delivered xs ++ delivered ys := by
  induction xs with
  | nil => rfl
  | cons e xs ih => cases e <;> simp [delivered, ih]

theorem writes_append (xs ys : List Event) : writes (xs ++ ys) = writes xs ++ writes ys := by
  induction xs with
  | nil => rfl
  | cons e xs ih => cases e <;> simp [writes, ih]

theorem newReader_inv (src : Source) (c : Nat) : ReaderInv (NewReaderSize src c) := by
  intro h
  simp [NewReaderSize] at h

theorem newReader_pending (src : Source) (c : Nat) :
    (NewReaderSize src c).pending = src.data := rfl

/-- Every session ends: for a positive chunk size the loop has a result,
the same for every sufficient bound on the iterations. -/
theorem session_ends (src : Source) (c : Nat) (hc : 0 < c) (client : Client) :
    ∃ n x evs, Run c (NewReaderSize src c) client x evs ∧
      ∀ fuel, n ≤ fuel → streamLoop c fuel (NewReaderSize src c) client = some (x, evs) := by
  obtain ⟨x, evs, h⟩ := run_exists c hc _ (NewReaderSize src c) client
    (Nat.lt_succ_self _) (newReader_inv src c)
  obtain ⟨n, hn⟩ := loop_of_run c _ _ _ _ h
  exact ⟨n, x, evs, h, hn⟩

/-- C3: for every finite source, every positive chunk size, when no read
fails (each returns at least one byte or end-of-source) and no client write
fails, the streaming loop terminates at end-of-source and the slices it wrote,
concatenated, are exactly the source: the same bytes in the same order. -/
theorem C3_stream_complete (src : Source) (chunkSize : Nat) (hc : 0 < chunkSize)
    (client : Client) (hreads : ∀ s ∈ src.plan, s.fault = false ∧ 0 < s.limit)
    (hwrites : ∀ o ∈ client, o = none) :
    ∃ n evs,
      (∀ fuel, n ≤ fuel →
        streamLoop chunkSize fuel (NewReaderSize src chunkSize) client
          = some (Exit.completed, evs)) ∧
      (writes evs).flatten = src.data ∧ delivered evs = src.data ∧
      (delivered evs).length = src.data.length ∧
      ∀ (fs : String → Option Source) (filePath : String) (fuel : Nat),
        fs filePath = some src → n ≤ fuel →
        (handler fs filePath true chunkSize fuel client).map delivered = some src.data := by
  obtain ⟨n, x, evs, hrun, hn⟩ := session_ends src chunkSize hc client
  obtain ⟨⟨rest, p1, p1'⟩, ⟨rest2, p2, p2'⟩, -, p4, p5⟩ :=
    run_spec chunkSize hc _ _ _ _ hrun (newReader_inv src chunkSize)
  have hnf : NoFault (NewReaderSize src chunkSize) :=
    ⟨by simp [NewReaderSize], fun s hs => (hreads s hs).1⟩
  have hx : x = Exit.completed := by
    have h1 := p4 hnf
    have h2 := p5 hwrites
    cases x <;> simp_all
  subst hx
  have hrest : rest = [] := p1' rfl
  have hrest2 : rest2 = [] := p2' (by simp)
  subst hrest
  subst hrest2
  rw [List.append_nil] at p1 p2
  rw [newReader_pending] at p1
  have hd : delivered evs = src.data := by rw [p2, p1]
  refine ⟨n, evs, hn, p1, hd, by rw [hd], ?_⟩
  intro fs filePath fuel hfs hfuel
  simp only [handler, hfs, hn fuel hfuel, Option.map_some', Bool.true_eq_false, if_false]
  simp [delivered, delivered_append, hd]

theorem run_failed_write_last (c : Nat) (b : Reader) (cl : Client) (x : Exit)
    (evs : List Event) (h : Run c b cl x evs) :
    (∀ pre p k post, evs = pre ++ Event.write p k false :: post → post = []) ∧
    (x = Exit.writeFailed ↔ ∃ pre p k, evs = pre ++ [Event.write p k false]) := by
  induction h with
  | @writeFail b cl cl' p e b' k hr hp hw =>
    refine ⟨?_, fun _ => ⟨[Event.read p e], p, k, rfl⟩, fun _ => rfl⟩
    intro pre q j post h
    rcases pre with _ | ⟨a, _ | ⟨a2, pre⟩⟩ <;> simp at h
    · exact h.2.2
  | @lastChunk b cl cl' p e b' k hr hp hw =>
    refine ⟨?_, ?_⟩
    · intro pre q j post h
      rcases pre with _ | ⟨a, _ | ⟨a2, _ | ⟨a3, pre⟩⟩⟩ <;> simp at h
    · constructor
      · intro h
        cases e <;> simp [exitOf] at h
      · rintro ⟨pre, q, j, h⟩
        rcases pre with _ | ⟨a, _ | ⟨a2, _ | ⟨a3, pre⟩⟩⟩ <;> simp at h
  | @chunk b cl cl' p b' k x evs hr hp hw _ ih =>
    refine ⟨?_, ?_⟩
    · intro pre q j post h
      rcases pre with _ | ⟨a, _ | ⟨a2, _ | ⟨a3, pre⟩⟩⟩ <;> simp at h
      exact ih.1 pre q j post h.2.2.2
    · rw [ih.2]
      constructor
      · rintro ⟨pre, q, j, h⟩
        exact ⟨Event.read p none :: Event.write p k true :: Event.flush :: pre, q, j, by
          rw [h]; rfl⟩
      · rintro ⟨pre, q, j, h⟩
        rcases pre with _ | ⟨a, _ | ⟨a2, _ | ⟨a3, pre⟩⟩⟩ <;> simp at h
        exact ⟨pre, q, j, h.2.2.2⟩
  | @stop b cl p e b' hr hp =>
    refine ⟨?_, ?_⟩
    · intro pre q j post h
      rcases pre with _ | ⟨a, pre⟩ <;> simp at h
    · constructor
      · intro h
        cases e <;> simp [exitOf] at h
      · rintro ⟨pre, q, j, h⟩
        rcases pre with _ | ⟨a, pre⟩ <;> simp at h
  | @idle b cl p b' x evs hr hp _ ih =>
    refine ⟨?_, ?_⟩
    · intro pre q j post h
      rcases pre with _ | ⟨a, pre⟩ <;> simp at h
      exact ih.1 pre q j post h.2
    · rw [ih.2]
      constructor
      · rintro ⟨pre, q, j, h⟩
        exact ⟨Event.read p none :: pre, q, j, by rw [h]; rfl⟩
      · rintro ⟨pre, q, j, h⟩
        rcases pre with _ | ⟨a, pre⟩ <;> simp at h
        exact ⟨pre, q, j, h.2⟩

theorem run_iterations (c : Nat) (b : Reader) (cl : Client) (x : Exit)
    (evs : List Event) (h : Run c b cl x evs) :
    (∃ its : List Iteration, evs = its.flatMap Iteration.events) ∧
    (writes evs).length = nonEmptyReads evs ∧
    flushes evs = goodWrites evs ∧
    (x ≠ Exit.writeFailed → goodWrites evs = (writes evs).length) := by
  induction h with
  | @writeFail b cl cl' p e b' k hr hp hw =>
    refine ⟨⟨[⟨p, e, k, false⟩], by simp [Iteration.events, hp]⟩, ?_, ?_, by simp⟩
    · simp [writes, nonEmptyReads, hp]
    · simp [flushes, goodWrites]
  | @lastChunk b cl cl' p e b' k hr hp hw =>
    refine ⟨⟨[⟨p, some e, k, true⟩], by simp [Iteration.events, hp]⟩, ?_, ?_, ?_⟩
    · simp [writes, nonEmptyReads, hp]
    · simp [flushes, goodWrites]
    · simp [writes, goodWrites]
  | @chunk b cl cl' p b' k x evs hr hp hw _ ih =>
    obtain ⟨⟨its, h1⟩, h2, h3, h4⟩ := ih
    refine ⟨⟨⟨p, none, k, true⟩ :: its, by simp [Iteration.events, hp, h1]⟩, ?_, ?_, ?_⟩
    · simp [writes, nonEmptyReads, hp, h2]; omega
    · simp [flushes, goodWrites, h3]; omega
    · intro hx
      simp [writes, goodWrites, h4 hx]; omega
  | @stop b cl p e b' hr hp =>
    refine ⟨⟨[⟨p, some e, 0, false⟩], by simp [Iteration.events, hp]⟩, ?_, ?_, ?_⟩
    · simp [writes, nonEmptyReads, hp]
    · simp [flushes, goodWrites]
    · simp [writes, goodWrites]
  | @idle b cl p b' x evs hr hp _ ih =>
    obtain ⟨⟨its, h1⟩, h2, h3, h4⟩ := ih
    refine ⟨⟨⟨p, none, 0, false⟩ :: its, by simp [Iteration.events, hp, h1]⟩, ?_, ?_, ?_⟩
    · simp [writes, nonEmptyReads, hp, h2]
    · simp [flushes, goodWrites, h3]
    · intro hx
      simp [writes, goodWrites, h4 hx]

theorem run_head (c : Nat) (b : Reader) (cl : Client) (x : Exit) (evs : List Event)
    (h : Run c b cl x evs) : ∃ p e r, evs = Event.read p e :: r := by
  cases h <;> exact ⟨_, _, _, rfl⟩

theorem run_adjacent (c : Nat) (b : Reader) (cl : Client) (x : Exit) (evs : List Event)
    (h : Run c b cl x evs) :
    ∀ pre p e rest, evs = pre ++ Event.read p e :: rest →
      (0 < p.length → ∃ k ok rest', rest = Event.write p k ok :: rest' ∧
        (ok = false → rest' = []) ∧
        (ok = true → ∃ rest'', rest' = Event.flush :: rest'' ∧
          (rest'' = [] ∨ ∃ q e' r, rest'' = Event.read q e' :: r))) ∧
      (p.length = 0 → rest = [] ∨ ∃ q e' r, rest = Event.read q e' :: r) := by
  induction h with
  | @writeFail b cl cl' p e b' k hr hp hw =>
    intro pre q e' rest h
    rcases pre with _ | ⟨a, _ | ⟨a2, pre⟩⟩ <;> simp at h
    obtain ⟨⟨rfl, rfl⟩, rfl⟩ := h
    exact ⟨fun _ => ⟨k, false, [], rfl, fun _ => rfl, by simp⟩, fun h0 => by omega⟩
  | @lastChunk b cl cl' p e b' k hr hp hw =>
    intro pre q e' rest h
    rcases pre with _ | ⟨a, _ | ⟨a2, _ | ⟨a3, pre⟩⟩⟩ <;> simp at h
    obtain ⟨⟨rfl, rfl⟩, rfl⟩ := h
    exact ⟨fun _ => ⟨k, true, [Event.flush], rfl, by simp, fun _ => ⟨[], rfl, Or.inl rfl⟩⟩,
      fun h0 => by omega⟩
  | @chunk b cl cl' p b' k x evs hr hp hw hrun ih =>
    intro pre q e' rest h
    rcases pre with _ | ⟨a, _ | ⟨a2, _ | ⟨a3, pre⟩⟩⟩ <;> simp at h
    · obtain ⟨⟨rfl, rfl⟩, rfl⟩ := h
      obtain ⟨q, e', r, hr'⟩ := run_head _ _ _ _ _ hrun
      exact ⟨fun _ => ⟨k, true, Event.flush :: evs, rfl, by simp,
        fun _ => ⟨evs, rfl, Or.inr ⟨q, e', r, hr'⟩⟩⟩, fun h0 => by omega⟩
    · exact ih pre q e' rest h.2.2.2
  | @stop b cl p e b' hr hp =>
    intro pre q e' rest h
    rcases pre with _ | ⟨a, pre⟩ <;> simp at h
    obtain ⟨⟨rfl, rfl⟩, rfl⟩ := h
    exact ⟨fun h0 => absurd h0 hp, fun _ => Or.inl rfl⟩
  | @idle b cl p b' x evs hr hp hrun ih =>
    intro pre q e' rest h
    rcases pre with _ | ⟨a, pre⟩ <;> simp at h
    · obtain ⟨⟨rfl, rfl⟩, rfl⟩ := h
      obtain ⟨q, e', r, hr'⟩ := run_head _ _ _ _ _ hrun
      exact ⟨fun h0 => absurd h0 hp, fun _ => Or.inr ⟨q, e', r, hr'⟩⟩
    · exact ih pre q e' rest h.2

/-- C8: every streaming session ends, and however it ends (end of source,
read error or failed write) the bytes the client accepted are a prefix of
the source, as are the slices offered to it taken together (so no byte is
repeated or skipped and no chunk is offered twice); a failed write is the
last event of the loop: no read, write or flush follows it. -/
theorem C8_prefix_no_retry (src : Source) (chunkSize : Nat) (hc : 0 < chunkSize)
    (client : Client) :
    ∃ n x evs,
      (∀ fuel, n ≤ fuel →
        streamLoop chunkSize fuel (NewReaderSize src chunkSize) client = some (x, evs)) ∧
      delivered evs <+: src.data ∧
      (writes evs).flatten <+: src.data ∧
      delivered evs <+: (writes evs).flatten ∧
      (x ≠ Exit.writeFailed → delivered evs = (writes evs).flatten) ∧
      (∀ pre p k post, evs = pre ++ Event.write p k false :: post → post = []) ∧
      (x = Exit.writeFailed ↔ ∃ pre p k, evs = pre ++ [Event.write p k false]) ∧
      ∀ (fs : String → Option Source) (filePath : String) (fuel : Nat),
        fs filePath = some src → n ≤ fuel →
        handler fs filePath true chunkSize fuel client =
          some ([Event.openFile true,
            Event.setHeader "Content-Type" "application/octet-stream",
            Event.setHeader "Cache-Control" "no-store"] ++ evs ++ [Event.close]) := by
  obtain ⟨n, x, evs, hrun, hn⟩ := session_ends src chunkSize hc client
  obtain ⟨⟨rest, p1, -⟩, ⟨rest2, p2, p2'⟩, -, -, -⟩ :=
    run_spec chunkSize hc _ _ _ _ hrun (newReader_inv src chunkSize)
  obtain ⟨f1, f2⟩ := run_failed_write_last _ _ _ _ _ hrun
  rw [newReader_pending] at p1
  refine ⟨n, x, evs, hn, ⟨rest2 ++ rest, ?_⟩, ⟨rest, p1⟩, ⟨rest2, p2⟩, ?_, f1, f2, ?_⟩
  · rw [← List.append_assoc, p2, p1]
  · intro hx
    have := p2' hx
    subst this
    simpa using p2
  · intro fs filePath fuel hfs hfuel
    simp only [handler, hfs, hn fuel hfuel, Option.map_some', Bool.true_eq_false, if_false]

/-- C9: every streaming session ends and its events are a sequence of
loop iterations, each being one read followed, exactly when the read
returned bytes (whatever error it reported with them), by one write of
exactly those bytes and, exactly when that write succeeded, one flush, after
which comes the next read or the end; a read of no bytes is followed
directly by the next read or the end; so no write is empty, the writes are as many as the reads that returned bytes,
the flushes as many as the successful writes, and when no write fails the
three numbers agree. -/
theorem C9_read_write_flush (src : Source) (chunkSize : Nat) (hc : 0 < chunkSize)
    (client : Client) :
    ∃ n x evs,
      (∀ fuel, n ≤ fuel →
        streamLoop chunkSize fuel (NewReaderSize src chunkSize) client = some (x, evs)) ∧
      (∃ its : List Iteration, evs = its.flatMap Iteration.events) ∧
      (∀ pre p e rest, evs = pre ++ Event.read p e :: rest →
        (0 < p.length → ∃ k ok rest', rest = Event.write p k ok :: rest' ∧
          (ok = false → rest' = []) ∧
          (ok = true → ∃ rest'', rest' = Event.flush :: rest'' ∧
            (rest'' = [] ∨ ∃ q e' r, rest'' = Event.read q e' :: r))) ∧
        (p.length = 0 → rest = [] ∨ ∃ q e' r, rest = Event.read q e' :: r)) ∧
      (∀ w ∈ writes evs, 0 < w.length) ∧
      (writes evs).length = nonEmptyReads evs ∧
      flushes evs = goodWrites evs ∧
      (x ≠ Exit.writeFailed → flushes evs = (writes evs).length) ∧
      ((∀ o ∈ client, o = none) →
        flushes evs = (writes evs).length ∧ (writes evs).length = nonEmptyReads evs) := by
  obtain ⟨n, x, evs, hrun, hn⟩ := session_ends src chunkSize hc client
  obtain ⟨-, -, p3, -, p5⟩ :=
    run_spec chunkSize hc _ _ _ _ hrun (newReader_inv src chunkSize)
  obtain ⟨i1, i2, i3, i4⟩ := run_iterations _ _ _ _ _ hrun
  refine ⟨n, x, evs, hn, i1, run_adjacent _ _ _ _ _ hrun, fun w hw => (p3 w hw).1, i2, i3,
    ?_, ?_⟩
  · intro hx
    rw [i3, i4 hx]
  · intro hcl
    rw [i3, i4 (p5 hcl)]
    exact ⟨rfl, i2⟩

theorem aligned_read (c : Nat) (hc : 0 < c) (b : Reader) (h : Aligned c b) :
    Aligned c (b.Read c).2.2 ∧ ((b.Read c).2.2.pending ≠ [] → (b.Read c).1.length = c) := by
  obtain ⟨⟨data, plan⟩, size, buf, err⟩ := b
  obtain ⟨h1, h2, h3, h4⟩ := h
  simp only at h1 h2 h3 h4
  subst h1 h2
  have hne : c ≠ 0 := by omega
  unfold Reader.Read
  simp only [if_neg hne]
  by_cases hb : buf = []
  · subst hb
    simp only [if_true, ne_eq, not_true_eq_false, if_false]
    by_cases hs : size ≤ c
    · simp only [if_pos hs]
      unfold Source.Read
      simp only [if_neg hne]
      by_cases hd : data = []
      · subst hd
        simp [Aligned, Reader.pending, hs]
      · simp only [hd, if_false, Aligned, Reader.pending, List.nil_append, List.length_nil,
          dvd_zero, true_or, and_true, true_and, List.length_take]
        refine ⟨Or.inl hs, ?_⟩
        intro hp
        have : 0 < (List.drop c data).length := List.length_pos.2 hp
        rw [List.length_drop] at this
        omega
    · simp only [if_neg hs]
      have hdvd : c ∣ size := by
        rcases h3 with h3 | h3
        · exact absurd h3 hs
        · exact h3
      have hsz : size ≠ 0 := by omega
      unfold Source.Read
      simp only [if_neg hsz]
      by_cases hd : data = []
      · subst hd
        simp [Aligned, Reader.pending, hdvd]
      · have hdl : 0 < data.length := List.length_pos.2 hd
        have hp0 : ¬ (min size data.length = 0) := by omega
        simp only [hd, if_false, List.length_take, hp0, Aligned, Reader.pending, true_and,
          List.length_drop]
        refine ⟨⟨Or.inr hdvd, ?_⟩, ?_⟩
        · by_cases hfull : size ≤ data.length
          · left
            rw [Nat.min_eq_left hfull]
            exact Nat.dvd_sub' hdvd (dvd_refl c)
          · right
            exact List.drop_eq_nil_of_le (by omega)
        · intro hp
          have hlen : 0 < (List.drop c (List.take size data) ++ List.drop size data).length :=
            List.length_pos.2 hp
          rw [List.length_append, List.length_drop, List.length_take, List.length_drop] at hlen
          omega
  · simp only [if_neg hb, Aligned, Reader.pending, true_and, List.length_take,
      List.length_drop]
    have hbl : 0 < buf.length := List.length_pos.2 hb
    refine ⟨⟨h3, ?_⟩, ?_⟩
    · rcases h4 with h4 | h4
      · exact Or.inl (Nat.dvd_sub' h4 (dvd_refl c))
      · exact Or.inr h4
    · intro hp
      rcases h4 with h4 | h4
      · have := Nat.le_of_dvd hbl h4
        omega
      · subst h4
        have hlen : 0 < (List.drop c buf ++ []).length := List.length_pos.2 hp
        rw [List.length_append, List.length_drop] at hlen
        simp only [List.length_nil] at hlen
        omega

theorem aligned_inv (c : Nat) (b : Reader) (h : Aligned c b) : ReaderInv b := by
  intro he
  rw [h.1] at he
  cases he

theorem run_aligned (c : Nat) (hc : 0 < c) (b : Reader) (cl : Client) (x : Exit)
    (evs : List Event) (h : Run c b cl x evs) (hd : Aligned c b) :
    ∀ w ∈ (writes evs).dropLast, w.length = c := by
  induction h with
  | @writeFail b cl cl' p e b' k hr hp hw => simp [writes]
  | @lastChunk b cl cl' p e b' k hr hp hw => simp [writes]
  | @chunk b cl cl' p b' k x evs hr hp hw hrun ih =>
    obtain ⟨d1, d2⟩ := aligned_read c hc b hd
    rw [hr] at d1 d2
    simp only at d1 d2
    intro w hw'
    simp only [writes] at hw'
    rcases hws : writes evs with _ | ⟨w0, ws⟩
    · rw [hws] at hw'
      simp at hw'
    · rw [hws, List.dropLast_cons₂, List.mem_cons] at hw'
      rcases hw' with rfl | hw'
      · obtain ⟨⟨rest, p1, -⟩, -, p3, -, -⟩ := run_spec c hc _ _ _ _ hrun (aligned_inv c b' d1)
        have hw0 : 0 < w0.length := (p3 w0 (by rw [hws]; exact List.mem_cons_self _ _)).1
        have hpend : 0 < b'.pending.length := by
          rw [← p1, hws, List.flatten_cons, List.length_append, List.length_append]
          omega
        exact d2 (List.length_pos.1 hpend)
      · exact ih d1 w (by rw [hws]; exact hw')
  | @stop b cl p e b' hr hp => simp [writes]
  | @idle b cl p b' x evs hr hp hrun ih =>
    obtain ⟨d1, -⟩ := aligned_read c hc b hd
    rw [hr] at d1
    simpa only [writes] using ih d1

/-- C5 (as amended): in a session with a positive chunk size every write
carries between 1 and `chunkSize` bytes; when moreover `chunkSize` is at
least the minimum buffer size 16 of `bufio` or divides it, the file fills
the buffer it is given while bytes remain and no write fails, the session
ends at end-of-source and every write except the final one carries exactly
`chunkSize` bytes. -/
theorem C5_chunk_sizes (src : Source) (chunkSize : Nat) (hc : 0 < chunkSize)
    (client : Client) :
    ∃ n x evs,
      (∀ fuel, n ≤ fuel →
        streamLoop chunkSize fuel (NewReaderSize src chunkSize) client = some (x, evs)) ∧
      (∀ w ∈ writes evs, 1 ≤ w.length ∧ w.length ≤ chunkSize) ∧
      (minReadBufferSize ≤ chunkSize ∨ chunkSize ∣ minReadBufferSize → src.plan = [] →
        (∀ o ∈ client, o = none) →
        x = Exit.completed ∧ ∀ w ∈ (writes evs).dropLast, w.length = chunkSize) := by
  obtain ⟨n, x, evs, hrun, hn⟩ := session_ends src chunkSize hc client
  obtain ⟨-, -, p3, p4, p5⟩ :=
    run_spec chunkSize hc _ _ _ _ hrun (newReader_inv src chunkSize)
  refine ⟨n, x, evs, hn, p3, ?_⟩
  intro hmin hplan hcl
  have hsize : max chunkSize minReadBufferSize ≤ chunkSize ∨
      chunkSize ∣ max chunkSize minReadBufferSize := by
    rcases hmin with hmin | hmin
    · exact Or.inl (Nat.max_le.2 ⟨le_refl _, hmin⟩)
    · rcases Nat.le_total chunkSize minReadBufferSize with hle | hle
      · rw [Nat.max_eq_right hle]
        exact Or.inr hmin
      · exact Or.inl (Nat.max_le.2 ⟨le_refl _, hle⟩)
  have hd : Aligned chunkSize (NewReaderSize src chunkSize) :=
    ⟨rfl, hplan, hsize, Or.inl (by simp [NewReaderSize])⟩
  have hnf : NoFault (NewReaderSize src chunkSize) :=
    ⟨by simp [NewReaderSize], by simp [NewReaderSize, hplan]⟩
  refine ⟨?_, run_aligned chunkSize hc _ _ _ _ hrun hd⟩
  have h1 := p4 hnf
  have h2 := p5 hcl
  cases x <;> simp_all

theorem C5_chunk_sizes_witness :
    (∃ n x evs,
      (∀ fuel, n ≤ fuel →
        streamLoop 16 fuel (NewReaderSize ⟨List.range 40, []⟩ 16) [] = some (x, evs)) ∧
      x = Exit.completed ∧ ∀ w ∈ (writes evs).dropLast, w.length = 16) ∧
    (∃ n x evs,
      (∀ fuel, n ≤ fuel →
        streamLoop 4 fuel (NewReaderSize ⟨List.range 21, []⟩ 4) [] = some (x, evs)) ∧
      x = Exit.completed ∧ ∀ w ∈ (writes evs).dropLast, w.length = 4) :=
  have ⟨n, x, evs, h1, _, h3⟩ := C5_chunk_sizes ⟨List.range 40, []⟩ 16 (by decide) []
  have ⟨m, y, evs', g1, _, g3⟩ := C5_chunk_sizes ⟨List.range 21, []⟩ 4 (by decide) []
  ⟨⟨n, x, evs, h1, h3 (Or.inl (by decide)) rfl (by simp)⟩,
    ⟨m, y, evs', g1, g3 (Or.inr (by decide)) rfl (by simp)⟩⟩

/-- With `chunkSize = 4`, which divides the buffer size 16, a 21-byte file
is sent in writes of 4, 4, 4, 4, 4 and 1 bytes. -/
theorem chunk4_write_lengths :
    (streamLoop 4 20 (NewReaderSize ⟨List.range 21, []⟩ 4) []).map
      (fun r => (writes r.2).map List.length) = some [4, 4, 4, 4, 4, 1] := by
  decide

/-- C5, counterexample: with `chunkSize = 10` the reader's buffer has 16
bytes, and a 20-byte file whose reads and writes all succeed is sent in
writes of 10, 6 and 4 bytes: the second write is not the final one and
carries 6 bytes, not 10.  The same happens for every chunk size below 16
that does not divide 16, on a 17-byte file; and for a chunk size of 16 when
a read of the file returns fewer bytes than asked for while bytes remain
(5 of 40 here), without any read or write failing. -/
theorem C5_counterexample :
    (∃ evs, streamLoop 10 4 (NewReaderSize ⟨List.range 20, []⟩ 10) []
        = some (Exit.completed, evs) ∧
      (writes evs).map List.length = [10, 6, 4] ∧
      ¬ (∀ w ∈ (writes evs).dropLast, w.length = 10)) ∧
    (∀ c ∈ [3, 5, 6, 7, 9, 10, 11, 12, 13, 14, 15],
      ∃ evs, streamLoop c 9 (NewReaderSize ⟨List.range 17, []⟩ c) []
          = some (Exit.completed, evs) ∧
        ¬ (∀ w ∈ (writes evs).dropLast, w.length = c)) ∧
    (∃ evs, streamLoop 16 5
        (NewReaderSize ⟨List.range 40, [⟨5, false, false⟩]⟩ 16) []
        = some (Exit.completed, evs) ∧
      (writes evs).map List.length = [5, 16, 16, 3] ∧
      ¬ (∀ w ∈ (writes evs).dropLast, w.length = 16)) := by
  refine ⟨⟨_, rfl, rfl, by decide⟩, ?_, ⟨_, rfl, rfl, by decide⟩⟩
  intro c hc
  simp only [List.mem_cons, List.mem_singleton, List.not_mem_nil, or_false] at hc
  rcases hc with rfl | rfl | rfl | rfl | rfl | rfl | rfl | rfl | rfl | rfl | rfl <;>
    exact ⟨_, rfl, by decide⟩

theorem C3_stream_complete_witness :
    ∃ n evs,
      (∀ fuel, n ≤ fuel →
        streamLoop 10 fuel (NewReaderSize ⟨List.range 25, [⟨3, false, false⟩]⟩ 10) [none]
          = some (Exit.completed, evs)) ∧
      delivered evs = List.range 25 :=
  have ⟨n, evs, h1, _, h3, _⟩ := C3_stream_complete ⟨List.range 25, [⟨3, false, false⟩]⟩ 10
    (by decide) [none] (by decide) (by decide)
  ⟨n, evs, h1, h3⟩

theorem C8_prefix_no_retry_witness :
    ∃ n x evs,
      (∀ fuel, n ≤ fuel →
        streamLoop 4 fuel (NewReaderSize ⟨List.range 30, [⟨5, true, false⟩]⟩ 4) [none, some 2]
          = some (x, evs)) ∧
      delivered evs <+: List.range 30 ∧
      (∀ pre p k post, evs = pre ++ Event.write p k false :: post → post = []) :=
  have ⟨n, x, evs, h1, h2, _, _, _, h6, _⟩ :=
    C8_prefix_no_retry ⟨List.range 30, [⟨5, true, false⟩]⟩ 4 (by decide) [none, some 2]
  ⟨n, x, evs, h1, h2, h6⟩

theorem C9_read_write_flush_witness :
    ∃ n x evs,
      (∀ fuel, n ≤ fuel →
        streamLoop 4 fuel (NewReaderSize ⟨List.range 9, [⟨0, false, false⟩, ⟨9, false, true⟩]⟩ 4)
          [] = some (x, evs)) ∧
      (∃ its : List Iteration, evs = its.flatMap Iteration.events) ∧
      flushes evs = (writes evs).length ∧ (writes evs).length = nonEmptyReads evs :=
  have ⟨n, x, evs, h1, h2, _, _, _, _, _, h7⟩ :=
    C9_read_write_flush ⟨List.range 9, [⟨0, false, false⟩, ⟨9, false, true⟩]⟩ 4 (by decide) []
  ⟨n, x, evs, h1, h2, (h7 (by simp)).1, (h7 (by simp)).2⟩

/-- C10: when opening the source file fails, the handler answers with
status 500 and stops: its only events are the failed open and the error
response, so it reads nothing, writes no file data and opens only once,
whatever the chunk size, the client and the bound on iterations. -/
theorem C10_open_failure (fs : String → Option Source) (filePath : String)
    (hopen : fs filePath = none) (isFlusher : Bool) (chunkSize fuel : Nat) (client : Client) :
    handler fs filePath isFlusher chunkSize fuel client =
      some [Event.openFile false, Event.httpError "failed to open data file" 500] ∧
    ∀ evs, handler fs filePath isFlusher chunkSize fuel client = some evs →
      writes evs = [] ∧ delivered evs = [] ∧ nonEmptyReads evs = 0 ∧
      (∀ p e, Event.read p e ∉ evs) ∧ (∀ p k ok, Event.write p k ok ∉ evs) ∧
      Event.flush ∉ evs ∧ Event.openFile true ∉ evs ∧
      evs.count (Event.openFile false) = 1 := by
  have h : handler fs filePath isFlusher chunkSize fuel client =
      some [Event.openFile false, Event.httpError "failed to open data file" 500] := by
    simp only [handler, hopen, StatusInternalServerError]
  refine ⟨h, ?_⟩
  intro evs hevs
  rw [h] at hevs
  cases hevs
  refine ⟨rfl, rfl, rfl, by simp, by simp, by simp, by simp, by decide⟩

theorem C10_open_failure_witness :
    handler (fun _ => none) "missing.bin" true 10 100 [] =
      some [Event.openFile false, Event.httpError "failed to open data file" 500] :=
  (C10_open_failure (fun _ => none) "missing.bin" rfl true 10 100 []).1
